import Mathlib

/-!
Verification development for the osqtool repository (chainguard-dev/osqtool).

The Go sources under `pkg/query` (query.go, run.go) and `cmd/osqtool/main.go`
are shallowly embedded here.  Strings are modelled as `List Char` (`Str`),
Go's `int`/`time.Duration` as Lean `Int` (durations in nanoseconds, interval
values in seconds, exactly as the Go code mixes them), and fallible code as
`Except`.  Each Go standard-library helper used by the code
(`strings.Cut`, `strings.Count`, `strings.TrimSpace`, `strconv.Atoi`, ...)
is given its own definition with the documented Go semantics.
-/

deriving instance DecidableEq for Except

namespace Osq

/-- Strings are modelled as lists of characters. -/
abbrev Str := List Char

/-- Convert a Lean string literal to the `Str` model. -/
def str (s : String) : Str := s.data

/-- Go `unicode.IsSpace` restricted to the ASCII whitespace characters
(space, tab, newline, vertical tab, form feed, carriage return). -/
def isWS (c : Char) : Bool :=
  c = ' ' || c = '\t' || c = '\n' || c = Char.ofNat 11 || c = Char.ofNat 12 || c = '\r'

/-- Left half of Go `strings.TrimSpace`. -/
def trimLeft (s : Str) : Str := s.dropWhile isWS

/-- Right half of Go `strings.TrimSpace`. -/
def trimRight (s : Str) : Str := ((s.reverse).dropWhile isWS).reverse

/-- Go `strings.TrimSpace`. -/
def trimSpace (s : Str) : Str := trimRight (trimLeft s)

/-- Go `strings.Split(s, string(c))` for a one-character separator. -/
def splitChar (c : Char) : Str → List Str
  | [] => [[]]
  | a :: rest =>
    if a = c then [] :: splitChar c rest
    else
      match splitChar c rest with
      | [] => [[a]]
      | h :: t => (a :: h) :: t

/-- Go `strings.Cut(s, sep)` for a nonempty separator: split at the first
occurrence of `sep`; `none` when `sep` does not occur. -/
def cutAt (sep : Str) : Str → Option (Str × Str)
  | [] => none
  | a :: rest =>
    if sep.isPrefixOf (a :: rest) then some ([], (a :: rest).drop sep.length)
    else (cutAt sep rest).map fun p => (a :: p.1, p.2)

/-- Go `strings.Contains(s, sub)` for nonempty `sub`. -/
def containsSub (sub s : Str) : Bool := (cutAt sub s).isSome

/-- Go `strings.Count(s, string(c))` for a one-character substring. -/
def countChar (c : Char) (s : Str) : Nat := s.count c

/-- Go `strings.HasPrefix`. -/
def hasPrefixStr (pre s : Str) : Bool := pre.isPrefixOf s

/-- Go `strings.HasSuffix`. -/
def hasSuffixStr (suf s : Str) : Bool := suf.isSuffixOf s

/-- Go `strings.TrimSuffix`. -/
def trimSuffixStr (suf s : Str) : Str :=
  if suf.isSuffixOf s then s.take (s.length - suf.length) else s

/-- Scanning loop of `replaceAll`; the fuel only serves structural
termination and never runs out when it starts at the string length. -/
def replaceAllFuel (pat rep : Str) : Nat → Str → Str
  | _, [] => []
  | 0, s => s
  | fuel + 1, a :: rest =>
    if pat.isPrefixOf (a :: rest) ∧ 0 < pat.length then
      rep ++ replaceAllFuel pat rep fuel ((a :: rest).drop pat.length)
    else
      a :: replaceAllFuel pat rep fuel rest

/-- Go `strings.ReplaceAll(s, pat, rep)` for a nonempty pattern:
replace every non-overlapping occurrence, scanning left to right. -/
def replaceAll (pat rep : Str) (s : Str) : Str :=
  replaceAllFuel pat rep s.length s

/-- Value of a digit run (no emptiness check). -/
def digitsVal (s : Str) : Nat :=
  s.foldl (fun acc c => acc * 10 + (c.toNat - '0'.toNat)) 0

/-- Digit run to a natural number (`none` when empty or a non-digit occurs). -/
def digitsToNat? (s : Str) : Option Nat :=
  if s ≠ [] && s.all Char.isDigit then some (digitsVal s) else none

/-- Go `strconv.Atoi`: optional single sign followed by a nonempty digit run.
(The Go 64-bit range check is not modelled; all values in play are small.) -/
def atoi? (s : Str) : Option Int :=
  match s with
  | '+' :: rest => (digitsToNat? rest).map Int.ofNat
  | '-' :: rest => (digitsToNat? rest).map fun n => -(n : Int)
  | _ => (digitsToNat? s).map Int.ofNat

/-- Digit loop of `natDigits`; the fuel only serves structural termination
and never runs out when it starts above the number. -/
def natDigitsFuel : Nat → Nat → Str
  | 0, _ => []
  | fuel + 1, n =>
    if n < 10 then [Nat.digitChar n]
    else natDigitsFuel fuel (n / 10) ++ [Nat.digitChar (n % 10)]

/-- Decimal digits of a natural number, most significant first. -/
def natDigits (n : Nat) : Str := natDigitsFuel (n + 1) n

/-- Go `strconv.Itoa` / `fmt.Sprintf("%d", ·)`. -/
def itoa (i : Int) : Str :=
  if i < 0 then '-' :: natDigits i.natAbs else natDigits i.toNat

/-- An exact decimal number `mant / 10 ^ scale`. -/
structure Dec where
  mant : Int
  scale : Nat
deriving Repr, DecidableEq

/-- Split a leading digit run from a string. -/
def takeDigits (s : Str) : Str × Str :=
  (s.takeWhile Char.isDigit, s.dropWhile Char.isDigit)

/-- Go `strconv.ParseFloat` restricted to plain decimal notation
`[+-]digits[.digits]` / `[+-].digits`.  Exponents, hex floats, Inf and NaN
are not modelled: the repository only feeds tag-table modifiers such as
`"1.25"` or `"4"` into `ParseFloat`.  The value is kept exact. -/
def parseFloat? (s : Str) : Option Dec :=
  let signRest : Int × Str :=
    match s with
    | '+' :: r => (1, r)
    | '-' :: r => (-1, r)
    | r => (1, r)
  let sign := signRest.1
  let (ip, r1) := takeDigits signRest.2
  match r1 with
  | [] => if ip = [] then none else some ⟨sign * digitsVal ip, 0⟩
  | '.' :: fr =>
    let (fd, r3) := takeDigits fr
    if r3 ≠ [] then none
    else if ip = [] && fd = [] then none
    else some ⟨sign * (digitsVal ip * 10 ^ fd.length + digitsVal fd), fd.length⟩
  | _ => none

/-- Truncation toward zero of `i * mant / 10 ^ scale` — the Go conversion
`int(float64(i) * x)` for a decimal `x` (exact rational arithmetic stands in
for float64; all values exercised here are exactly representable). -/
def mulTrunc (i : Int) (d : Dec) : Int := Int.tdiv (i * d.mant) (10 ^ d.scale)

/-- Truncation toward zero of `i * 10 ^ scale / mant` — the Go conversion
`int(float64(i) / d)` for a decimal `d`. -/
def divTrunc (i : Int) (d : Dec) : Int := Int.tdiv (i * 10 ^ d.scale) d.mant

/-- Nanoseconds of one Go duration unit (`time.ParseDuration` unit table,
without the unicode aliases for microseconds). -/
def unitNs (u : Str) : Option Int :=
  if u = str "ns" then some 1
  else if u = str "us" then some 1000
  else if u = str "ms" then some 1000000
  else if u = str "s" then some 1000000000
  else if u = str "m" then some 60000000000
  else if u = str "h" then some 3600000000000
  else none

/-- Split a leading unit name (maximal run of non-digit, non-dot characters). -/
def takeUnit (s : Str) : Str × Str :=
  (s.takeWhile (fun c => !(c.isDigit || c = '.')),
   s.dropWhile (fun c => !(c.isDigit || c = '.')))

/-- One `time.ParseDuration` component `digits[.digits]unit` (or `.digits
unit`): nanosecond value and the unconsumed remainder. -/
def parseComponent (s : Str) : Option (Int × Str) :=
  let (ip, r1) := takeDigits s
  let decRest : Dec × Str :=
    match r1 with
    | '.' :: fr =>
      let (fd, r3) := takeDigits fr
      (⟨(digitsVal ip : Int) * 10 ^ fd.length + (digitsVal fd : Int), fd.length⟩,
       if ip = [] && fd = [] then r1 else r3)
    | _ => (⟨(digitsVal ip : Int), 0⟩, r1)
  let hasDigits : Bool :=
    match r1 with
    | '.' :: fr => ip ≠ [] || (takeDigits fr).1 ≠ []
    | _ => ip ≠ []
  if !hasDigits then none
  else
    let (u, rest) := takeUnit decRest.2
    match unitNs u with
    | none => none
    | some v => some (Int.tdiv (decRest.1.mant * v) (10 ^ decRest.1.scale), rest)

/-- Fuelled loop over duration components. -/
def parseComponents : Nat → Str → Option Int
  | _, [] => some 0
  | 0, _ => none
  | fuel + 1, s => do
    let (ns, rest) ← parseComponent s
    let more ← parseComponents fuel rest
    pure (ns + more)

/-- Go `time.ParseDuration`, returning whole nanoseconds (exact for the
decimal subset modelled by `parseFloat?`-style components). -/
def parseDuration? (s : Str) : Option Int :=
  let negRest : Bool × Str :=
    match s with
    | '-' :: r => (true, r)
    | '+' :: r => (false, r)
    | r => (false, r)
  let rest := negRest.2
  if rest = str "0" then some 0
  else if rest = [] then none
  else (parseComponents (rest.length + 1) rest).map
    fun ns => if negRest.1 then -ns else ns

/-! ## The query record model (`pkg/query/query.go`, type `Metadata`) -/

/-- `query.Metadata` from query.go.  The JSON-only booleans
(`Snapshot`, `Removed`, `DenyList`) are never touched by the embedded
functions and are omitted. -/
structure Metadata where
  query : Str := []
  interval : Str := []
  shard : Int := 0
  platform : Str := []
  version : Str := []
  description : Str := []
  extendedDescription : Str := []
  value : Str := []
  name : Str := []
  tags : List Str := []
  singleLineQuery : Str := []
deriving Repr, DecidableEq, Inhabited

/-- The only failure `Parse` can produce: `strconv.Atoi` rejecting a
`shard` directive value. -/
inductive ParseErr where
  | shardAtoi (content : Str)
deriving Repr, DecidableEq

/-- The quote-aware comment split from `Parse` (query.go lines 132-141):
`strings.Cut(s, "--")` followed by the two both-odd quote-count overrides
(double quotes first, then single quotes). -/
def commentSplit (s : Str) : Str × Str × Bool :=
  match cutAt (str "--") s with
  | none => (s, [], false)
  | some (b, a) =>
    let hc := true
    let hc := if countChar '"' b % 2 = 1 ∧ countChar '"' a % 2 = 1 then false else hc
    let hc := if countChar '\'' b % 2 = 1 ∧ countChar '\'' a % 2 = 1 then false else hc
    (b, a, hc)

/-- A line is kept whole by the line loop exactly when its comment split
is suppressed (no `--`, or `--` inside a string literal). -/
def keepsWhole (s : Str) : Bool := !(commentSplit s).2.2

/-- The directive switch from `Parse` (query.go lines 165-182). -/
def applyDirective (m : Metadata) (directive content : Str) : Except ParseErr Metadata :=
  if directive = str "interval" then .ok { m with interval := content }
  else if directive = str "platform" then .ok { m with platform := content }
  else if directive = str "version" then .ok { m with version := content }
  else if directive = str "tags" then .ok { m with tags := splitChar ' ' content }
  else if directive = str "shard" then
    match atoi? content with
    | none => .error (.shardAtoi content)
    | some n => .ok { m with shard := n }
  else if directive = str "value" then .ok { m with value := content }
  else .ok m

/-- State threaded through the line loop of `Parse`: the record under
construction and the accumulated executable-text lines `out`. -/
structure PState where
  m : Metadata
  out : List Str
deriving Repr, DecidableEq

/-- One iteration of the line loop of `Parse` (query.go lines 127-183);
`i` is the line index. -/
def parseLine (st : PState) (iline : Nat × Str) : Except ParseErr PState :=
  let s := trimSuffixStr (str "\n") iline.2
  let (before, after, hasComment) := commentSplit s
  if !hasComment then .ok { st with out := st.out ++ [s] }
  else if !hasPrefixStr (str "--") (trimSpace s) then .ok { st with out := st.out ++ [before] }
  else
    let m := if iline.1 = 0 then { st.m with description := trimSpace after } else st.m
    let after := trimSpace after
    let dc := cutAt [':'] (trimSpace after)
    let directive := match dc with | none => after | some p => p.1
    let content := match dc with | none => [] | some p => trimSpace p.2
    (applyDirective m directive content).map fun m => { st with m := m }

/-- Platform inference from the name suffix (query.go lines 204-219),
applied only when no `platform` directive was seen. -/
def inferPlatform (name : Str) : Str :=
  if hasSuffixStr (str "linux") name then str "linux"
  else if hasSuffixStr (str "macos") name then str "darwin"
  else if hasSuffixStr (str "darwin") name then str "darwin"
  else if hasSuffixStr (str "posix") name then str "posix"
  else if hasSuffixStr (str "unix") name then str "posix"
  else if hasSuffixStr (str "windows") name then str "windows"
  else if hasSuffixStr (str "win") name then str "windows"
  else []

/-- The line loop of `Parse`: process each line in turn, tracking the Go
loop's line index `i`. -/
def parseLines (i : Nat) (st : PState) : List Str → Except ParseErr PState
  | [] => .ok st
  | l :: rest =>
    match parseLine st (i, l) with
    | .error e => .error e
    | .ok st' => parseLines (i + 1) st' rest

/-- `query.Parse` (query.go lines 120-222). -/
def Parse (name : Str) (bs : Str) : Except ParseErr Metadata :=
  (parseLines 0 ⟨{ name := name }, []⟩ (splitChar '\n' bs)).map fun st =>
    let q := trimSpace (List.intercalate (str "\n") st.out)
    let sl := trimSpace (List.intercalate (str " ") (st.out.map trimSpace))
    let qsl : Str × Str :=
      if !hasSuffixStr (str ";") q then (q ++ str ";", sl ++ str ";") else (q, sl)
    let m2 : Metadata := { st.m with query := qsl.1, singleLineQuery := qsl.2 }
    if m2.platform ≠ [] then m2
    else { m2 with platform := inferPlatform m2.name }

/-- The `-- interval: <v>` line of `Render`, emitted when set. -/
def intervalSeg (m : Metadata) : List Str :=
  if m.interval ≠ [] then [str "-- interval: " ++ m.interval] else []

/-- The `-- platform: <v>` line of `Render`, emitted when set. -/
def platformSeg (m : Metadata) : List Str :=
  if m.platform ≠ [] then [str "-- platform: " ++ m.platform] else []

/-- The `-- shard: <n>` line of `Render`, emitted when positive. -/
def shardSeg (m : Metadata) : List Str :=
  if m.shard > 0 then [str "-- shard: " ++ itoa m.shard] else []

/-- The `-- value: <v>` line of `Render`, emitted when set. -/
def valueSeg (m : Metadata) : List Str :=
  if m.value ≠ [] then [str "-- value: " ++ m.value] else []

/-- The `-- version: <v>` line of `Render`, emitted when set. -/
def versionSeg (m : Metadata) : List Str :=
  if m.version ≠ [] then [str "-- version: " ++ m.version] else []

/-- The directive lines of `Render`, in emission order (query.go lines
93-111). -/
def headerSegs (m : Metadata) : List Str :=
  intervalSeg m ++ platformSeg m ++ shardSeg m ++ valueSeg m ++ versionSeg m

/-- The line list assembled by `Render` (query.go lines 77-114). -/
def renderLines (m : Metadata) : List Str :=
  (if m.description ≠ [] then [str "-- " ++ m.description] else [])
  ++ [str "--"]
  ++ (if m.extendedDescription ≠ [] then
        (splitChar '\n' m.extendedDescription).map (fun ed => str "-- " ++ ed)
        ++ [str "-- "]
      else [])
  ++ headerSegs m
  ++ [[], m.query]

/-- `query.Render` (query.go lines 76-117); the Go version returns a
never-failing `(string, error)` pair. -/
def Render (m : Metadata) : Str :=
  List.intercalate (str "\n") (renderLines m) ++ str "\n"

/-! ## The execution path (`pkg/query/run.go` and `Verify` in main.go) -/

/-- `query.IsIncompatible` (run.go lines 49-61): `[]` when compatible,
otherwise the platform the query wants.  `goos` is `runtime.GOOS`. -/
def IsIncompatible (goos : Str) (m : Metadata) : Str :=
  if m.platform ≠ [] && m.platform ≠ goos then
    if m.platform = str "posix" then
      if goos ≠ str "linux" && goos ≠ str "darwin" then str "posix" else []
    else m.platform
  else []

/-- One row of osquery JSON output; only its presence/count matters here. -/
abbrev Row := List (Str × Str)

/-- The observable behaviour of one `osqueryi` invocation
(`cmd.Output()` in run.go): whether it failed, and how. -/
structure BackendBehavior where
  /-- `cmd.Output()` returned a non-nil error. -/
  isFailure : Bool := false
  /-- The failure was an `exec.ExitError` (process ran and exited non-zero). -/
  isExitError : Bool := false
  /-- Exit code of the failed process. -/
  exitCode : Int := 0
  /-- Stderr contained the substring `"no such table:"`. -/
  stderrNoSuchTable : Bool := false
  /-- Rows decoded from stdout (`none` models `json.Unmarshal` failing,
  which run.go only logs, leaving the empty row list). -/
  jsonRows : Option (List Row) := some []
  /-- Wall-clock elapsed nanoseconds measured around the invocation. -/
  elapsed : Int := 0
deriving Repr, DecidableEq

/-- `query.Run`'s result record (run.go `RunResult`). -/
structure RunResult where
  incompatiblePlatform : Str
  rows : List Row
  elapsed : Int
deriving Repr, DecidableEq

/-- `query.Run` (run.go lines 63-106) with the `osqueryi` child process
abstracted into `b`.  The second component counts how many times the
backend was invoked: the code calls `cmd.Output()` unconditionally, so it
is always 1.  A failure is tolerated (treated as a partial test) exactly
when the query is platform-incompatible, the process exited 1, and stderr
mentioned a missing table. -/
def RunQuery (goos : Str) (b : BackendBehavior) (m : Metadata) :
    Except Str RunResult × Nat :=
  let incompatible := IsIncompatible goos m
  let calls := 1
  if b.isFailure then
    if b.isExitError then
      if incompatible ≠ [] ∧ b.exitCode = 1 ∧ b.stderrNoSuchTable = true then
        (.ok ⟨incompatible, b.jsonRows.getD [], b.elapsed⟩, calls)
      else (.error (str "exec exit error"), calls)
    else (.error (str "exec error"), calls)
  else (.ok ⟨incompatible, b.jsonRows.getD [], b.elapsed⟩, calls)

/-- The flag configuration (main.go `Config`), with Go durations kept in
their code units: nanoseconds for the `maxQuery*` budgets, whole seconds
for the interval fields (the code reads them via `.Seconds()`). -/
structure Config where
  maxQueryDuration : Int := 4000000000
  maxQueryDurationPerDay : Int := 3600000000000
  maxTotalQueryDurationPerDay : Int := 21600000000000
  minIntervalSeconds : Int := 20
  maxIntervalSeconds : Int := 86400
  defaultIntervalSeconds : Int := 3600
  tagIntervals : List Str := []
  exclude : List Str := []
  excludeTags : List Str := []
  platforms : List Str := []
  maxResults : Int := 250000
  multiLine : Bool := false
deriving Repr, DecidableEq

/-- Result of `dailyQueryDuration` (main.go lines 362-370).  `panic` is the
Go run-time panic raised by `86400 / 0`. -/
inductive DQD where
  | ok (durationPerDay : Int) (runsPerDay : Int)
  | err (interval : Str)
  | panic
deriving Repr, DecidableEq

/-- `dailyQueryDuration` (main.go lines 362-370): `strconv.Atoi` the
interval, then `runs := 86400 / i` (Go integer division truncates toward
zero and panics on a zero divisor) and `duration := runs * elapsed`. -/
def dailyQueryDuration (interval : Str) (elapsed : Int) : DQD :=
  match atoi? interval with
  | none => .err interval
  | some i =>
    if i = 0 then .panic
    else .ok (Int.tdiv 86400 i * elapsed) (Int.tdiv 86400 i)

/-- Classification of one verification task.  `erroredAfterCost` is a task
that failed the per-day or row-count check after already adding its daily
cost to the shared counters (main.go lines 529-530 run before those
checks); `errored` failed before reaching the counters. -/
inductive Outcome where
  | verifiedOk (durationPerDay : Int) (runsPerDay : Int)
  | partialSkip
  | errored (msg : Str)
  | erroredAfterCost (msg : Str) (durationPerDay : Int) (runsPerDay : Int)
  | crashed
deriving Repr, DecidableEq

/-- The per-query task body dispatched by `Verify` (main.go lines 506-552),
paired with the number of backend invocations it performs. -/
def verifyTask (goos : Str) (c : Config) (b : BackendBehavior) (name : Str)
    (m : Metadata) : Outcome × Nat :=
  match RunQuery goos b m with
  | (.error e, calls) => (.errored (name ++ str ": " ++ e), calls)
  | (.ok vf, calls) =>
    if vf.incompatiblePlatform ≠ [] then (.partialSkip, calls)
    else if vf.elapsed > c.maxQueryDuration then
      (.errored (name ++ str ": exceeds --max-query-duration"), calls)
    else
      match dailyQueryDuration m.interval vf.elapsed with
      | .err _ => (.errored (name ++ str ": failed to parse interval"), calls)
      | .panic => (.crashed, calls)
      | .ok dur runs =>
        if dur > c.maxQueryDurationPerDay then
          (.erroredAfterCost (name ++ str ": exceeds --max-daily-query-duration") dur runs, calls)
        else if (vf.rows.length : Int) > c.maxResults then
          (.erroredAfterCost (name ++ str ": results exceeds --max-results") dur runs, calls)
        else (.verifiedOk dur runs, calls)

/-- The aggregate report assembled by `Verify` (main.go lines 555-572). -/
structure Report where
  verified : Nat
  partialCount : Nat
  taskErrors : List Str
  totalQueryDuration : Int
  totalRuns : Int
  aggregateErrors : List Str
deriving Repr, DecidableEq

/-- Aggregation step of `Verify` over the finished tasks: count
verified/partial, sum the daily duration and run counters (only tasks that
reached the daily computation add to them), then append the two aggregate
errors — zero verified queries, and total daily duration over budget. -/
def VerifyReport (c : Config) (outcomes : List Outcome) : Report :=
  let verified := (outcomes.filter fun o => match o with
    | .verifiedOk _ _ => true | _ => false).length
  let partialCount := (outcomes.filter fun o => match o with
    | .partialSkip => true | _ => false).length
  let taskErrors := outcomes.filterMap fun o => match o with
    | .errored e => some e | .erroredAfterCost e _ _ => some e | _ => none
  let totalDur := (outcomes.map fun o => match o with
    | .verifiedOk d _ => d | .erroredAfterCost _ d _ => d | _ => 0).sum
  let totalRuns := (outcomes.map fun o => match o with
    | .verifiedOk _ r => r | .erroredAfterCost _ _ r => r | _ => 0).sum
  let aggregate :=
    (if verified = 0 then [str "0 queries were fully verified"] else [])
    ++ (if totalDur > c.maxTotalQueryDurationPerDay then
          [str "total query duration per day exceeds --max-total-daily-duration"]
        else [])
  ⟨verified, partialCount, taskErrors, totalDur, totalRuns, taskErrors ++ aggregate⟩

/-- `Verify`'s per-batch model: run every task, then aggregate.  Each item
carries the backend behaviour observed for that query. -/
def VerifyModel (goos : Str) (c : Config)
    (items : List (Str × Metadata × BackendBehavior)) : Report :=
  VerifyReport c (items.map fun it => (verifyTask goos c it.2.2 it.1 it.2.1).1)

/-! ## The schedule constraint resolver (`calculateInterval`, `applyConfig`) -/

/-- One rule of the tag-interval table (body of the loop in
`calculateInterval`, main.go lines 137-187).  `k` is the raw
`tag=modifier` entry; an entry that fails to parse is logged and leaves
the running interval unchanged. -/
def applyTagRule (tags : List Str) (interval : Int) (k : Str) : Int :=
  match cutAt ['='] k with
  | none => interval
  | some (tag, modifier) =>
    if !(tags.contains tag) then interval
    else
      match atoi? modifier with
      | some i => i
      | none =>
        match parseDuration? modifier with
        | some ns => Int.tdiv ns 1000000000
        | none =>
          if hasSuffixStr (str "x") modifier then
            match parseFloat? (modifier.dropWhile (· = 'x') |>.reverse.dropWhile (· = 'x') |>.reverse) with
            | none => interval
            | some x => mulTrunc interval x
          else if containsSub (str "x/") modifier then
            match cutAt ['/'] k with
            | none => interval
            | some (_, divisor) =>
              match parseFloat? divisor with
              | some d => divTrunc interval d
              | none => interval
          else interval

/-- `calculateInterval` (main.go lines 129-189): start from the default
interval in seconds and fold the tag-interval table in order. -/
def calculateInterval (m : Metadata) (c : Config) : Int :=
  c.tagIntervals.foldl (applyTagRule m.tags) c.defaultIntervalSeconds

/-- Membership in the exclude-by-name set (main.go lines 196-202: empty
strings are never added to the map). -/
def inExcludeSet (l : List Str) (x : Str) : Bool := x ≠ [] && l.contains x

/-- The platform allow-list test of `applyConfig` (main.go line 239):
drop when the list is non-empty, the record's platform is set, and it is
not listed. -/
def platformExcluded (c : Config) (m : Metadata) : Bool :=
  c.platforms.any (fun p => !p.isEmpty) && !m.platform.isEmpty
    && !(inExcludeSet c.platforms m.platform)

/-- Continuation of the `applyConfig` record loop body after the
exclude-by-name check (main.go lines 231-263): tag exclusion, platform
allow-list, interval resolution and the two clamp overrides.  Note the
faithful control-flow quirk: the tag-exclusion `continue` only leaves the
inner tag loop, so a tag-excluded record is deleted yet still flows
through the platform check and interval resolution (and can still make
the whole call fail on an unparseable interval). -/
def applyConfigChecks (c : Config) (name : Str) (m : Metadata) :
    Except Str (Option Metadata) :=
  let tagExcluded := m.tags.any (inExcludeSet c.excludeTags)
  if platformExcluded c m then
    .ok none
  else
    let m := if m.interval = [] then { m with interval := itoa (calculateInterval m c) } else m
    match atoi? m.interval with
    | none => .error (name ++ str ": failed to parse interval")
    | some i =>
      let m := if i > c.maxIntervalSeconds then { m with interval := itoa c.maxIntervalSeconds } else m
      let m := if i < c.minIntervalSeconds then { m with interval := itoa c.minIntervalSeconds } else m
      .ok (if tagExcluded then none else some m)

/-- The body of the `applyConfig` record loop (main.go lines 220-264) for
one record: the multi-line/compact query swap and the exclude-by-name
check, then `applyConfigChecks`.  `.ok none` means the record was deleted
from the map. -/
def applyConfigRecord (c : Config) (name : Str) (m0 : Metadata) :
    Except Str (Option Metadata) :=
  let m := if !c.multiLine then { m0 with query := m0.singleLineQuery } else m0
  if inExcludeSet c.exclude name then .ok none
  else applyConfigChecks c name m

/-! ## Loading and merging (`LoadFromDir`, `loadAndApply` in main.go) -/

/-- `filepath.Base` for slash-separated paths without trailing slashes. -/
def baseName (p : Str) : Str := (splitChar '/' p).getLast!

/-- `query.Load` (query.go lines 60-73) with the file contents supplied:
the record name is the base filename with every `.sql` removed. -/
def LoadModel (path content : Str) : Except ParseErr Metadata :=
  Parse (replaceAll (str ".sql") [] (baseName path)) content

/-- Go map assignment `mm[k] = v` on an association list. -/
def mapSet (mm : List (Str × Metadata)) (k : Str) (v : Metadata) :
    List (Str × Metadata) :=
  if mm.any (·.1 = k) then mm.map fun p => if p.1 = k then (k, v) else p
  else mm ++ [(k, v)]

/-- Go map lookup `mm[k]` (pointer values, so `nil` iff absent). -/
def mapGet (mm : List (Str × Metadata)) (k : Str) : Option Metadata :=
  (mm.find? (·.1 = k)).map (·.2)

/-- `query.LoadFromDir` (query.go lines 37-57) with the directory walk
abstracted to the list of files in walk order: each `.sql` file is loaded
and stored under its record name with plain map assignment — a later file
with the same name silently replaces an earlier one. -/
def LoadFromDirModel (files : List (Str × Str)) :
    Except ParseErr (List (Str × Metadata)) :=
  files.foldlM
    (fun mm pc =>
      if hasSuffixStr (str ".sql") pc.1 then
        (LoadModel pc.1 pc.2).map fun m => mapSet mm m.name m
      else .ok mm)
    []

/-- Errors of `loadAndApply` (main.go lines 372-418). -/
inductive LoadErr where
  | conflict (name : Str)
  | applyFailed (msg : Str)
deriving Repr, DecidableEq

/-- One step of the merge loop of `loadAndApply` (main.go lines 402-407):
`if mm[k] != nil` is a fatal conflict naming the duplicate, otherwise the
record is stored. -/
def mergeStep (mm : List (Str × Metadata)) (kv : Str × Metadata) :
    Except LoadErr (List (Str × Metadata)) :=
  if (mapGet mm kv.1).isSome then .error (.conflict kv.1)
  else .ok (mapSet mm kv.1 kv.2)

/-- The merge loop of `loadAndApply` (main.go lines 402-408): each source's
records are added to the accumulated map.  Sources are given as their
already-loaded record lists (one per path). -/
def mergeSources (sources : List (List (Str × Metadata))) :
    Except LoadErr (List (Str × Metadata)) :=
  sources.foldlM (fun mm loaded => loaded.foldlM mergeStep mm) []

/-- `applyConfig` (main.go lines 192-266) over the merged records: apply
the per-record body to every entry, dropping deleted ones.  (The Go code
mutates the map during iteration; the per-record body is independent of
the rest of the map, so the surviving set is order-independent.) -/
def applyConfig (c : Config) (mm : List (Str × Metadata)) :
    Except Str (List (Str × Metadata)) :=
  mm.foldlM
    (fun acc kv =>
      (applyConfigRecord c kv.1 kv.2).map fun r =>
        match r with
        | none => acc
        | some m => acc ++ [(kv.1, m)])
    []

/-- `loadAndApply` (main.go lines 372-418): merge all sources, then apply
the configuration. -/
def loadAndApply (c : Config) (sources : List (List (Str × Metadata))) :
    Except LoadErr (List (Str × Metadata)) :=
  match mergeSources sources with
  | .error e => .error e
  | .ok mm =>
    match applyConfig c mm with
    | .error e => .error (.applyFailed e)
    | .ok mm => .ok mm

/-! ## Claim C9: zero verified queries is an aggregate error -/

/-- Claim C9: in every verification run in which zero records reach the
Verified outcome, the aggregate Report carries an error, even when no
individual per-query budget was breached (main.go lines 560-562 append
the `0 queries were fully verified` error unconditionally on a zero
verified count). -/
theorem verify_zero_verified_is_aggregate_error (goos : Str) (c : Config)
    (items : List (Str × Metadata × BackendBehavior))
    (h : (VerifyModel goos c items).verified = 0) :
    (VerifyModel goos c items).aggregateErrors ≠ [] := by
  simp only [VerifyModel, VerifyReport] at h ⊢
  rw [if_pos h]
  intro hnil
  rcases List.append_eq_nil.mp hnil with ⟨-, h2⟩
  rcases List.append_eq_nil.mp h2 with ⟨h3, -⟩
  exact List.cons_ne_nil _ _ h3

/-- Witness for C9: a batch whose single record is platform-incompatible
has zero verified records, and its report carries an aggregate error. -/
theorem verify_zero_verified_is_aggregate_error_witness :
    (VerifyModel (str "linux") {}
      [(str "q", { platform := str "windows", interval := str "3600" }, {})]).verified = 0 ∧
    (VerifyModel (str "linux") {}
      [(str "q", { platform := str "windows", interval := str "3600" }, {})]).aggregateErrors ≠ [] :=
  ⟨by decide,
   verify_zero_verified_is_aggregate_error (str "linux") {}
     [(str "q", { platform := str "windows", interval := str "3600" }, {})] (by decide)⟩

/-! ## Claim C1: platform-incompatible records and the backend -/

/-- A platform-incompatible record used to test the verification path. -/
def winOnLinux : Metadata := { platform := str "windows", interval := str "3600" }

/-- Claim C1 (counterexample): a record whose declared platform differs
from the host is marked Partial, but the execution backend is invoked
exactly once for it — `Run` calls `cmd.Output()` unconditionally (run.go
line 81) — so the claimed backend call count of zero is false. -/
theorem incompatible_backend_called_counterexample :
    IsIncompatible (str "linux") winOnLinux ≠ [] ∧
    (verifyTask (str "linux") {} {} (str "q") winOnLinux).1 = Outcome.partialSkip ∧
    (verifyTask (str "linux") {} {} (str "q") winOnLinux).2 = 1 ∧
    ¬ (verifyTask (str "linux") {} {} (str "q") winOnLinux).2 = 0 := by
  refine ⟨by decide, by decide, by decide, by decide⟩

/-- Claim C1 (amended): for every record whose declared platform is set
and differs from the host (with `posix` compatible with linux/darwin
hosts), the verification task marks the outcome Partial and skips all
budget checks, but the backend is invoked exactly once; the invocation's
failure is tolerated only when it is an exit-status-1 failure whose
stderr reports a missing table. -/
theorem incompatible_marks_partial_after_one_backend_call
    (goos : Str) (c : Config) (b : BackendBehavior) (name : Str) (m : Metadata)
    (hinc : IsIncompatible goos m ≠ [])
    (hb : b.isFailure = false ∨
      (b.isExitError = true ∧ b.exitCode = 1 ∧ b.stderrNoSuchTable = true)) :
    verifyTask goos c b name m = (Outcome.partialSkip, 1) := by
  unfold verifyTask RunQuery
  rcases hb with hb | ⟨h1, h2, h3⟩
  · simp [hb, hinc]
  · rcases hf : b.isFailure with _ | _ <;>
      simp [hf, h1, h2, h3, hinc]

/-- Witness for C1 (amended): concrete incompatible record, successful
backend call. -/
theorem incompatible_marks_partial_after_one_backend_call_witness :
    verifyTask (str "linux") {} {} (str "q2") winOnLinux = (Outcome.partialSkip, 1) :=
  incompatible_marks_partial_after_one_backend_call (str "linux") {} {} (str "q2")
    winOnLinux (by decide) (Or.inl (by decide))

/-! ## Claim C3: `dailyQueryDuration` on non-positive intervals -/

/-- Claim C3 (counterexample): `dailyQueryDuration` does not return an
error for every non-positive interval string — interval `"0"` reaches the
division and panics (divide by zero), and interval `"-5"` silently
produces a negative result. -/
theorem dailyQueryDuration_nonpositive_counterexample :
    dailyQueryDuration (str "0") 7 = DQD.panic ∧
    dailyQueryDuration (str "-5") 10 = DQD.ok (-172800) (-17280) := by
  refine ⟨by decide, by decide⟩

/-- Claim C3 (amended): `dailyQueryDuration` returns an error exactly when
the interval string is not an integer; an interval of zero panics with a
division by zero instead of erroring, and any nonzero integer (including
negative ones) yields `runsPerDay = 86400 / i` (truncated) and
`dailyDuration = runsPerDay * elapsed` without error. -/
theorem dailyQueryDuration_cases (s : Str) (d : Int) :
    (atoi? s = none → dailyQueryDuration s d = DQD.err s) ∧
    (atoi? s = some 0 → dailyQueryDuration s d = DQD.panic) ∧
    (∀ i : Int, atoi? s = some i → i ≠ 0 →
      dailyQueryDuration s d = DQD.ok (Int.tdiv 86400 i * d) (Int.tdiv 86400 i)) := by
  refine ⟨fun h => ?_, fun h => ?_, fun i h hi => ?_⟩
  · simp [dailyQueryDuration, h]
  · simp [dailyQueryDuration, h]
  · simp [dailyQueryDuration, h, hi]

/-- Witness for C3 (amended): instantiated at interval `"-5"` and a
10-nanosecond run. -/
theorem dailyQueryDuration_cases_witness :
    dailyQueryDuration (str "-5") 10 = DQD.ok (Int.tdiv 86400 (-5) * 10) (Int.tdiv 86400 (-5)) :=
  (dailyQueryDuration_cases (str "-5") 10).2.2 (-5) (by decide) (by decide)

/-! ## Claim C2: `--` inside balanced quotes is not a comment -/

theorem trimSuffixNL_eq (s : Str) (h : '\n' ∉ s) :
    trimSuffixStr (str "\n") s = s := by
  rw [trimSuffixStr]
  rcases hsuf : List.isSuffixOf (str "\n") s with _ | _
  · simp
  · rw [List.isSuffixOf_iff_suffix] at hsuf
    exact absurd (hsuf.sublist.mem (by simp [str])) h

/-- A line whose comment split is suppressed is appended whole to the
executable text, with the record untouched. -/
theorem parseLine_keeps (st : PState) (i : Nat) (s : Str)
    (hnl : trimSuffixStr (str "\n") s = s)
    (hk : keepsWhole s = true) :
    parseLine st (i, s) = .ok { st with out := st.out ++ [s] } := by
  rw [keepsWhole] at hk
  unfold parseLine
  rcases hcs : commentSplit s with ⟨b, rest⟩
  rcases rest with ⟨a, hc⟩
  rw [hcs] at hk
  simp only [Bool.not_eq_true'] at hk
  subst hk
  rw [hnl]
  dsimp only
  rw [hcs]
  simp

/-- The spec's example line, with `--` inside a single-quoted literal. -/
def quotedDashLine : Str :=
  str "select * from t where x = " ++ '\'' :: (str "--not-a-comment" ++ '\'' :: [';'])

/-- Claim C2: when a line splits at the first `--` and the single-quote
counts on both sides are both odd (or the double-quote counts are), the
`--` is treated as ordinary text and the whole line becomes executable
query text; in particular the example line parses to executable text that
still contains the literal `--`. -/
theorem quoted_comment_treated_as_text :
    (∀ (st : PState) (i : Nat) (s b a : Str),
      '\n' ∉ s →
      cutAt (str "--") s = some (b, a) →
      ((countChar '\'' b % 2 = 1 ∧ countChar '\'' a % 2 = 1) ∨
       (countChar '"' b % 2 = 1 ∧ countChar '"' a % 2 = 1)) →
      parseLine st (i, s) = .ok { st with out := st.out ++ [s] }) ∧
    (Parse (str "q") quotedDashLine).map Metadata.query = .ok quotedDashLine ∧
    containsSub (str "--") quotedDashLine = true := by
  refine ⟨fun st i s b a hnl hcut hodd => ?_, by decide, by decide⟩
  refine parseLine_keeps st i s (trimSuffixNL_eq s hnl) ?_
  rw [keepsWhole]
  unfold commentSplit
  rw [hcut]
  rcases hodd with ⟨h1, h2⟩ | ⟨h1, h2⟩
  · simp only [if_pos (And.intro h1 h2), Bool.not_false]
  · simp only [if_pos (And.intro h1 h2)]
    by_cases hsq : countChar '\'' b % 2 = 1 ∧ countChar '\'' a % 2 = 1
    · simp [hsq]
    · simp [hsq]

/-- Witness for C2: the quote-guard applied to a concrete line. -/
theorem quoted_comment_treated_as_text_witness :
    parseLine ⟨{}, []⟩ (3, str "x = " ++ '\'' :: (str "--y" ++ ['\''])) =
      .ok { m := {}, out := [str "x = " ++ '\'' :: (str "--y" ++ ['\''])] } :=
  quoted_comment_treated_as_text.1 ⟨{}, []⟩ 3
    (str "x = " ++ '\'' :: (str "--y" ++ ['\'']))
    (str "x = " ++ ['\'']) (str "y" ++ ['\''])
    (by decide) (by decide) (Or.inl (by decide))

/-! ## Claim C5: the description comes from line 0 only -/

theorem splitChar_ne_nil (c : Char) (s : Str) : splitChar c s ≠ [] := by
  induction s with
  | nil => simp [splitChar]
  | cons a rest ih =>
    rw [splitChar]
    by_cases h : a = c
    · simp [h]
    · simp only [h, if_false]
      rcases hs : splitChar c rest with _ | ⟨hd, tl⟩
      · simp
      · simp

/-- No directive assignment ever writes the description field. -/
theorem applyDirective_description (m : Metadata) (d c : Str) (m' : Metadata)
    (h : applyDirective m d c = .ok m') : m'.description = m.description := by
  unfold applyDirective at h
  split_ifs at h <;> first
    | (injection h with h; subst h; rfl)
    | (rcases ha : atoi? c with _ | n <;> rw [ha] at h
       · cases h
       · injection h with h; subst h; rfl)

/-- A line at a nonzero index never changes the description. -/
theorem parseLine_desc_stable (st : PState) (i : Nat) (l : Str) (st' : PState)
    (hi : i ≠ 0) (h : parseLine st (i, l) = .ok st') :
    st'.m.description = st.m.description := by
  unfold parseLine at h
  dsimp only at h
  simp only [Bool.not_eq_true'] at h
  by_cases hc : (commentSplit (trimSuffixStr (str "\n") l)).2.2 = false
  · rw [if_pos hc] at h
    injection h with h
    rw [← h]
  · rw [if_neg hc] at h
    by_cases hp : hasPrefixStr (str "--") (trimSpace (trimSuffixStr (str "\n") l)) = false
    · rw [if_pos hp] at h
      injection h with h
      rw [← h]
    · rw [if_neg hp, if_neg hi] at h
      rcases had : applyDirective st.m
          (match cutAt [':'] (trimSpace (trimSpace (commentSplit (trimSuffixStr (str "\n") l)).2.1)) with
           | none => trimSpace (commentSplit (trimSuffixStr (str "\n") l)).2.1
           | some p => p.1)
          (match cutAt [':'] (trimSpace (trimSpace (commentSplit (trimSuffixStr (str "\n") l)).2.1)) with
           | none => []
           | some p => trimSpace p.2) with _ | m2
      · rw [had] at h
        cases h
      · rw [had] at h
        injection h with h
        rw [← h]
        exact applyDirective_description _ _ _ _ had

/-- Lines processed from any nonzero starting index leave the
description unchanged. -/
theorem parseLines_desc_stable (ls : List Str) :
    ∀ (j : Nat) (st st' : PState), j ≠ 0 →
    parseLines j st ls = .ok st' → st'.m.description = st.m.description := by
  induction ls with
  | nil =>
    intro j st st' _ h
    unfold parseLines at h
    injection h with h
    rw [h]
  | cons l rest ih =>
    intro j st st' hj h
    unfold parseLines at h
    rcases hl : parseLine st (j, l) with _ | st1
    · rw [hl] at h; cases h
    · rw [hl] at h
      rw [ih (j + 1) st1 st' (by omega) h]
      exact parseLine_desc_stable st j l st1 hj hl

/-- What line 0 contributes to the description, read off the source text:
its comment content when it is a comment-only line, nothing otherwise. -/
def line0descLine (l : Str) : Str :=
  let s := trimSuffixStr (str "\n") l
  if (commentSplit s).2.2 = true ∧ hasPrefixStr (str "--") (trimSpace s) = true then
    trimSpace (commentSplit s).2.1
  else []

/-- The description `Parse` produces for a source, read off its first
line. -/
def line0desc (bs : Str) : Str :=
  match splitChar '\n' bs with
  | [] => []
  | l0 :: _ => line0descLine l0

theorem parseLine_zero_desc (st : PState) (l : Str) (st' : PState)
    (hd : st.m.description = []) (h : parseLine st (0, l) = .ok st') :
    st'.m.description = line0descLine l := by
  unfold parseLine at h
  dsimp only at h
  simp only [Bool.not_eq_true'] at h
  unfold line0descLine
  by_cases hc : (commentSplit (trimSuffixStr (str "\n") l)).2.2 = false
  · rw [if_pos hc] at h
    injection h with h
    rw [← h]
    simp [hc, hd]
  · rw [if_neg hc] at h
    simp only [Bool.not_eq_false] at hc
    by_cases hp : hasPrefixStr (str "--") (trimSpace (trimSuffixStr (str "\n") l)) = false
    · rw [if_pos hp] at h
      injection h with h
      rw [← h]
      simp [hc, hp, hd]
    · rw [if_neg hp] at h
      simp only [Bool.not_eq_false] at hp
      simp only [if_true] at h
      rcases had : applyDirective
          { st.m with description := trimSpace (commentSplit (trimSuffixStr (str "\n") l)).2.1 }
          (match cutAt [':'] (trimSpace (trimSpace (commentSplit (trimSuffixStr (str "\n") l)).2.1)) with
           | none => trimSpace (commentSplit (trimSuffixStr (str "\n") l)).2.1
           | some p => p.1)
          (match cutAt [':'] (trimSpace (trimSpace (commentSplit (trimSuffixStr (str "\n") l)).2.1)) with
           | none => []
           | some p => trimSpace p.2) with _ | m2
      · rw [had] at h
        cases h
      · rw [had] at h
        injection h with h
        rw [← h]
        rw [applyDirective_description _ _ _ _ had]
        simp [hc, hp]

/-- Claim C5 (counterexample): in the source `"select 1\n-- hello"` the
first comment-only line ever encountered is line 1 with content `hello`,
yet the parsed description is empty — a comment-only line at a later
position never becomes the description (query.go line 154 tests `i == 0`). -/
theorem description_ignores_later_comment_lines_cex :
    (Parse (str "n") (str "select 1\n-- hello")).map Metadata.description = .ok [] ∧
    (commentSplit (str "-- hello")).2.2 = true ∧
    hasPrefixStr (str "--") (trimSpace (str "-- hello")) = true ∧
    trimSpace (commentSplit (str "-- hello")).2.1 = str "hello" ∧
    ¬ (str "hello" = []) := by
  refine ⟨by decide, by decide, by decide, by decide, by decide⟩

/-- Claim C5 (amended): the record's description is the comment content
of the source's first line when that line is comment-only, and empty
otherwise; comment-only lines at any later position never set it. -/
theorem description_from_line_zero_only (name bs : Str) (m : Metadata)
    (h : Parse name bs = .ok m) : m.description = line0desc bs := by
  unfold Parse at h
  rcases hres : parseLines 0 ⟨{ name := name }, []⟩ (splitChar '\n' bs) with _ | st
  · rw [hres] at h; cases h
  · rw [hres] at h
    simp only [Except.map] at h
    injection h with h
    have hdesc : m.description = st.m.description := by
      rw [← h]
      split <;> rfl
    rcases hsplit : splitChar '\n' bs with _ | ⟨l0, rest⟩
    · exact absurd hsplit (splitChar_ne_nil '\n' bs)
    · rw [hsplit] at hres
      unfold parseLines at hres
      rcases hl0 : parseLine ⟨{ name := name }, []⟩ (0, l0) with _ | st1
      · rw [hl0] at hres; cases hres
      · rw [hl0] at hres
        rw [line0desc, hsplit, hdesc,
          parseLines_desc_stable rest 1 st1 st (by omega) hres]
        exact parseLine_zero_desc _ l0 st1 rfl hl0

/-- Witness for C5 (amended): a comment-only first line becomes the
description. -/
theorem description_from_line_zero_only_witness :
    (str "My query") = line0desc (str "-- My query\nselect 1;") :=
  description_from_line_zero_only (str "w") (str "-- My query\nselect 1;")
    { query := str "select 1;", singleLineQuery := str "select 1;",
      description := str "My query", name := str "w" } (by decide)

/-! ## Claim C6: tag-interval table resolution -/

/-- A record tagged `often` hits the `often=x/4` rule: the running
interval is divided by 4 (truncating, via float64 in the Go code). -/
theorem applyTagRule_often (tags : List Str) (i : Int)
    (h : tags.contains (str "often") = true) :
    applyTagRule tags i (str "often=x/4") = divTrunc i ⟨4, 0⟩ := by
  unfold applyTagRule
  rw [show cutAt ['='] (str "often=x/4") = some (str "often", str "x/4") from rfl]
  simp only [h, Bool.not_true, Bool.false_eq_true, if_false,
    show atoi? (str "x/4") = none from rfl,
    show parseDuration? (str "x/4") = none from rfl,
    show hasSuffixStr (str "x") (str "x/4") = false from rfl,
    show containsSub (str "x/") (str "x/4") = true from rfl,
    show cutAt ['/'] (str "often=x/4") = some (str "often=x", str "4") from rfl,
    show parseFloat? (str "4") = some ⟨4, 0⟩ from rfl]
  simp

/-- A record tagged `rapid` hits the `rapid=15s` rule: the interval is set
absolutely to 15 seconds, whatever its running value. -/
theorem applyTagRule_rapid (tags : List Str) (i : Int)
    (h : tags.contains (str "rapid") = true) :
    applyTagRule tags i (str "rapid=15s") = 15 := by
  unfold applyTagRule
  rw [show cutAt ['='] (str "rapid=15s") = some (str "rapid", str "15s") from rfl]
  simp only [h, Bool.not_true, Bool.false_eq_true, if_false,
    show atoi? (str "15s") = none from rfl,
    show parseDuration? (str "15s") = some 15000000000 from rfl]
  decide

/-- A rule whose tag the record does not carry leaves the running
interval unchanged. -/
theorem applyTagRule_skip (tags : List Str) (i : Int) (tag modifier : Str)
    (hcut : cutAt ['='] (tag ++ '=' :: modifier) = some (tag, modifier))
    (h : tags.contains tag = false) :
    applyTagRule tags i (tag ++ '=' :: modifier) = i := by
  unfold applyTagRule
  rw [hcut]
  simp only [h, Bool.not_false, if_true]

/-- Claim C6: with tag-interval table `["often=x/4","rapid=15s"]` and
default interval 3600, a record tagged `often` (and not `rapid`) with no
explicit interval resolves to 900; a record tagged `rapid` resolves to 15
regardless of the default; and the rules are applied in table order, each
matching rule updating the running value seen by the later rules
(`calculateInterval` is a left fold of `applyTagRule` over the table). -/
theorem tag_interval_rules :
    (∀ m : Metadata, m.interval = [] → m.tags.contains (str "often") = true →
      m.tags.contains (str "rapid") = false →
      calculateInterval m { tagIntervals := [str "often=x/4", str "rapid=15s"],
                            defaultIntervalSeconds := 3600 } = 900) ∧
    (∀ (m : Metadata) (d : Int), m.interval = [] →
      m.tags.contains (str "rapid") = true →
      calculateInterval m { tagIntervals := [str "often=x/4", str "rapid=15s"],
                            defaultIntervalSeconds := d } = 15) ∧
    (∀ (m : Metadata) (c : Config) (r : Str) (rs : List Str),
      calculateInterval m { c with tagIntervals := r :: rs } =
        calculateInterval m
          { c with
            tagIntervals := rs
            defaultIntervalSeconds := applyTagRule m.tags c.defaultIntervalSeconds r }) := by
  refine ⟨fun m _ ho hr => ?_, fun m d _ hr => ?_, fun m c r rs => rfl⟩
  · show applyTagRule m.tags (applyTagRule m.tags 3600 (str "often=x/4")) (str "rapid=15s") = 900
    rw [applyTagRule_often m.tags 3600 ho]
    rw [show divTrunc 3600 ⟨4, 0⟩ = 900 from rfl]
    rw [show (str "rapid=15s") = (str "rapid") ++ '=' :: (str "15s") from rfl]
    rw [applyTagRule_skip m.tags 900 (str "rapid") (str "15s") rfl hr]
  · show applyTagRule m.tags (applyTagRule m.tags d (str "often=x/4")) (str "rapid=15s") = 15
    exact applyTagRule_rapid m.tags _ hr

/-- Witness for C6: concrete records tagged `often` (default 3600 → 900)
and `rapid` (arbitrary default 7777 → 15). -/
theorem tag_interval_rules_witness :
    calculateInterval { tags := [str "often"] }
      { tagIntervals := [str "often=x/4", str "rapid=15s"],
        defaultIntervalSeconds := 3600 } = 900 ∧
    calculateInterval { tags := [str "rapid"] }
      { tagIntervals := [str "often=x/4", str "rapid=15s"],
        defaultIntervalSeconds := 7777 } = 15 :=
  ⟨tag_interval_rules.1 { tags := [str "often"] } rfl (by decide) (by decide),
   tag_interval_rules.2.1 { tags := [str "rapid"] } 7777 rfl (by decide)⟩

/-! ## Claim C7: interval clamping -/

/-- Interval a surviving record resolves to before clamping: the explicit
string when present, otherwise the computed tag-table value. -/
def resolveInterval (c : Config) (m : Metadata) : Str :=
  if m.interval = [] then itoa (calculateInterval m c) else m.interval

/-- Clamping inside `applyConfigChecks`: a record that passes the
exclusion checks and whose resolved interval parses to `i` survives with
the clamped interval (both clamp `if`s test the original `i`, main.go
lines 256-263). -/
theorem clamp_checks (c : Config) (name : Str) (m1 : Metadata) (i : Int)
    (htag : m1.tags.any (inExcludeSet c.excludeTags) = false)
    (hplat : platformExcluded c m1 = false)
    (hi : atoi? (resolveInterval c m1) = some i) :
    ∃ mf : Metadata, applyConfigChecks c name m1 = .ok (some mf) ∧
      mf.interval =
        (if i < c.minIntervalSeconds then itoa c.minIntervalSeconds
         else if i > c.maxIntervalSeconds then itoa c.maxIntervalSeconds
         else resolveInterval c m1) := by
  unfold applyConfigChecks
  rw [hplat]
  simp only [Bool.false_eq_true, if_false, htag]
  by_cases hint : m1.interval = []
  · rw [resolveInterval, if_pos hint] at hi
    simp only [hint, if_true, if_pos rfl]
    rw [hi]
    by_cases h1 : i > c.maxIntervalSeconds <;> by_cases h2 : i < c.minIntervalSeconds <;>
      simp [h1, h2, resolveInterval, hint]
  · rw [resolveInterval, if_neg hint] at hi
    simp only [hint, if_false, hi]
    by_cases h1 : i > c.maxIntervalSeconds <;> by_cases h2 : i < c.minIntervalSeconds <;>
      simp [h1, h2, resolveInterval, hint]

/-- Claim C7: for every surviving record, whether its interval was
explicit or computed by resolution, clamping is applied after resolution:
with consistent bounds, an interval above the upper bound is set to the
upper bound and an interval below the lower bound is set to the lower
bound. -/
theorem clamping_applies (c : Config) (name : Str) (m : Metadata) (i : Int)
    (hname : inExcludeSet c.exclude name = false)
    (htag : m.tags.any (inExcludeSet c.excludeTags) = false)
    (hplat : platformExcluded c m = false)
    (hi : atoi? (resolveInterval c m) = some i) :
    ∃ mf : Metadata, applyConfigRecord c name m = .ok (some mf) ∧
      mf.interval =
        (if i < c.minIntervalSeconds then itoa c.minIntervalSeconds
         else if i > c.maxIntervalSeconds then itoa c.maxIntervalSeconds
         else resolveInterval c m) ∧
      (c.minIntervalSeconds ≤ c.maxIntervalSeconds →
        (i > c.maxIntervalSeconds → mf.interval = itoa c.maxIntervalSeconds) ∧
        (i < c.minIntervalSeconds → mf.interval = itoa c.minIntervalSeconds)) := by
  have hm1 : ∀ m1 : Metadata,
      (if !c.multiLine then ({ m with query := m.singleLineQuery } : Metadata) else m) = m1 →
      m1.tags = m.tags ∧ platformExcluded c m1 = platformExcluded c m ∧
      resolveInterval c m1 = resolveInterval c m := by
    intro m1 h
    cases hml : c.multiLine <;> rw [hml] at h <;> subst h <;> exact ⟨rfl, rfl, rfl⟩
  obtain ⟨ht1, hp1, hr1⟩ := hm1 _ rfl
  unfold applyConfigRecord
  rw [hname]
  simp only [Bool.false_eq_true, if_false]
  obtain ⟨mf, hok, hint⟩ := clamp_checks c name
    (if !c.multiLine then ({ m with query := m.singleLineQuery } : Metadata) else m) i
    (by rw [ht1]; exact htag) (by rw [hp1]; exact hplat) (by rw [hr1]; exact hi)
  refine ⟨mf, hok, ?_, ?_⟩
  · rw [hint, hr1]
  · intro hminmax
    constructor
    · intro hgt
      rw [hint]
      have : ¬ i < c.minIntervalSeconds := by omega
      rw [if_neg this, if_pos hgt]
    · intro hlt
      rw [hint, if_pos hlt]

/-- Witness for C7: with lower bound 15 and upper bound 86400, an explicit
interval `"5"` is clamped up to `"15"` and an explicit interval
`"200000"` is clamped down to `"86400"`. -/
theorem clamping_applies_witness :
    (∃ mf : Metadata, applyConfigRecord { minIntervalSeconds := 15, maxIntervalSeconds := 86400 }
        (str "a") { interval := str "5", singleLineQuery := str "select 1;" } = .ok (some mf) ∧
        mf.interval = str "15") ∧
    (∃ mf : Metadata, applyConfigRecord { minIntervalSeconds := 15, maxIntervalSeconds := 86400 }
        (str "b") { interval := str "200000", singleLineQuery := str "select 1;" } = .ok (some mf) ∧
        mf.interval = str "86400") := by
  constructor
  · obtain ⟨mf, h1, h2, -⟩ := clamping_applies
      { minIntervalSeconds := 15, maxIntervalSeconds := 86400 } (str "a")
      { interval := str "5", singleLineQuery := str "select 1;" } 5
      (by decide) (by decide) (by decide) (by decide)
    exact ⟨mf, h1, by rw [h2]; decide⟩
  · obtain ⟨mf, h1, h2, -⟩ := clamping_applies
      { minIntervalSeconds := 15, maxIntervalSeconds := 86400 } (str "b")
      { interval := str "200000", singleLineQuery := str "select 1;" } 200000
      (by decide) (by decide) (by decide) (by decide)
    exact ⟨mf, h1, by rw [h2]; decide⟩

/-! ## Claim C10: same-named `.sql` files silently shadow each other -/

/-- Claim C10: when the walked tree contains two `.sql` files whose base
names coincide, `LoadFromDir` succeeds without error and the record from
the later-walked file silently replaces the earlier one (query.go line 51
is a plain map assignment, with no collision check). -/
theorem loadFromDir_same_name_silently_replaces
    (p1 c1 p2 c2 : Str) (m1 m2 : Metadata)
    (h1 : hasSuffixStr (str ".sql") p1 = true)
    (h2 : hasSuffixStr (str ".sql") p2 = true)
    (hl1 : LoadModel p1 c1 = .ok m1) (hl2 : LoadModel p2 c2 = .ok m2)
    (hn : m1.name = m2.name) :
    LoadFromDirModel [(p1, c1), (p2, c2)] = .ok [(m2.name, m2)] := by
  simp only [LoadFromDirModel, List.foldlM_cons, List.foldlM_nil, h1, h2, hl1, hl2,
    if_true, Except.map, bind, Except.bind, pure, Except.pure]
  simp [mapSet, hn]

/-! ## Claim C8: duplicate names across sources abort the merge -/

theorem exBind_ok {ε α β : Type} (x : α) (f : α → Except ε β) :
    (Except.ok x >>= f) = f x := rfl

theorem exBind_error {ε α β : Type} (e : ε) (f : α → Except ε β) :
    ((Except.error e : Except ε α) >>= f) = Except.error e := rfl

theorem exPure {ε α : Type} (x : α) : (pure x : Except ε α) = .ok x := rfl

theorem optMap_or {α β : Type} (f : α → β) (a b : Option α) :
    (a.or b).map f = (a.map f).or (b.map f) := by
  cases a <;> cases b <;> rfl

theorem mapGet_cons (p : Str × Metadata) (t : List (Str × Metadata)) (k : Str) :
    mapGet (p :: t) k = if p.1 = k then some p.2 else mapGet t k := by
  by_cases h : p.1 = k <;> simp [mapGet, List.find?_cons, h]

theorem mapGet_none_iff (mm : List (Str × Metadata)) (k : Str) :
    mapGet mm k = none ↔ k ∉ mm.map Prod.fst := by
  induction mm with
  | nil => simp [mapGet]
  | cons p t ih =>
    rw [mapGet_cons]
    by_cases h : p.1 = k
    · simp [h]
    · simp [h, ih, Ne.symm h]

theorem mapGet_isSome_iff (mm : List (Str × Metadata)) (k : Str) :
    (mapGet mm k).isSome = true ↔ k ∈ mm.map Prod.fst := by
  rcases h : mapGet mm k with _ | v
  · simpa using (mapGet_none_iff mm k).mp h
  · simp only [Option.isSome_some, true_iff]
    by_contra hk
    rw [(mapGet_none_iff mm k).mpr hk] at h
    cases h

theorem mapSet_of_absent (mm : List (Str × Metadata)) (k : Str) (v : Metadata)
    (h : mapGet mm k = none) : mapSet mm k v = mm ++ [(k, v)] := by
  have hany : mm.any (fun p => p.1 = k) = false := by
    rw [Bool.eq_false_iff]
    intro hproof
    rcases List.any_eq_true.mp hproof with ⟨x, hx, hfst⟩
    exact (mapGet_none_iff mm k).mp h (List.mem_map.mpr ⟨x, hx, by simpa using hfst⟩)
  simp [mapSet, hany]

theorem mapGet_append (mm l : List (Str × Metadata)) (k : Str) :
    mapGet (mm ++ l) k = (mapGet mm k).or (mapGet l k) := by
  simp only [mapGet, List.find?_append, optMap_or]

/-- Merging a source with distinct names, none already present, never
conflicts and appends the source's records. -/
theorem mergeStep_fold_ok (s : List (Str × Metadata)) :
    ∀ mm : List (Str × Metadata),
    (∀ kv ∈ s, mapGet mm kv.1 = none) → (s.map Prod.fst).Nodup →
    s.foldlM mergeStep mm = .ok (mm ++ s) := by
  induction s with
  | nil => intro mm _ _; simp [exPure]
  | cons kv t ih =>
    intro mm habs hnd
    have hhead : mapGet mm kv.1 = none := habs kv (by simp)
    rw [List.foldlM_cons, mergeStep, hhead]
    simp only [Option.isSome_none, Bool.false_eq_true, if_false,
      mapSet_of_absent mm kv.1 kv.2 hhead, exBind_ok]
    rw [List.map_cons, List.nodup_cons] at hnd
    have ht : ∀ kw ∈ t, mapGet (mm ++ [(kv.1, kv.2)]) kw.1 = none := by
      intro kw hw
      rw [mapGet_append, habs kw (by simp [hw]), mapGet_cons]
      have hne : ¬ kv.1 = kw.1 := by
        intro he
        exact hnd.1 (he ▸ List.mem_map_of_mem Prod.fst hw)
      simp [hne, mapGet]
    rw [ih (mm ++ [(kv.1, kv.2)]) ht hnd.2]
    simp

/-- Merging a source that contains the already-present name `k` (its other
names being fresh and distinct) stops with a conflict error naming `k`. -/
theorem mergeStep_fold_conflict (s : List (Str × Metadata)) :
    ∀ (mm : List (Str × Metadata)) (k : Str),
    (s.map Prod.fst).Nodup → k ∈ s.map Prod.fst → (mapGet mm k).isSome = true →
    (∀ a ∈ s.map Prod.fst, a ≠ k → mapGet mm a = none) →
    s.foldlM mergeStep mm = .error (.conflict k) := by
  induction s with
  | nil => intro mm k _ hk _ _; cases hk
  | cons kv t ih =>
    intro mm k hnd hk hsome hfresh
    rw [List.map_cons, List.nodup_cons] at hnd
    by_cases he : kv.1 = k
    · rw [List.foldlM_cons, mergeStep, he, hsome]
      simp [exBind_error]
    · have hnone : mapGet mm kv.1 = none := hfresh kv.1 (by simp) he
      rw [List.foldlM_cons, mergeStep, hnone]
      simp only [Option.isSome_none, Bool.false_eq_true, if_false,
        mapSet_of_absent mm kv.1 kv.2 hnone, exBind_ok]
      have hkt : k ∈ t.map Prod.fst := by
        rw [List.map_cons] at hk
        rcases List.mem_cons.mp hk with h | h
        · exact absurd h.symm he
        · exact h
      rcases Option.isSome_iff_exists.mp hsome with ⟨v, hv⟩
      refine ih (mm ++ [(kv.1, kv.2)]) k hnd.2 hkt ?_ ?_
      · rw [mapGet_append, hv]
        rfl
      · intro a ha hak
        have hane : ¬ kv.1 = a := by
          intro h
          exact hnd.1 (h ▸ ha)
        rw [mapGet_append, hfresh a (by simp [ha]) hak, mapGet_cons]
        simp [hane, mapGet]

/-- Claim C8: whenever two distinct sources both contain a query with the
same name, merging them fails with a conflict error naming the duplicate,
and the merge is aborted — `loadAndApply` returns the conflict before
`applyConfig` ever runs, rather than letting one record shadow the other
(main.go lines 402-408). -/
theorem merge_duplicate_name_conflict (c : Config)
    (s1 s2 : List (Str × Metadata)) (k : Str)
    (h1 : (s1.map Prod.fst).Nodup) (h2 : (s2.map Prod.fst).Nodup)
    (hk1 : k ∈ s1.map Prod.fst) (hk2 : k ∈ s2.map Prod.fst)
    (huniq : ∀ a, a ∈ s1.map Prod.fst → a ∈ s2.map Prod.fst → a = k) :
    mergeSources [s1, s2] = .error (.conflict k) ∧
    loadAndApply c [s1, s2] = .error (.conflict k) := by
  have hm : mergeSources [s1, s2] = .error (.conflict k) := by
    unfold mergeSources
    rw [List.foldlM_cons]
    rw [mergeStep_fold_ok s1 [] (fun kv _ => rfl) h1]
    rw [List.nil_append, exBind_ok, List.foldlM_cons]
    rw [mergeStep_fold_conflict s2 s1 k h2 hk2 ((mapGet_isSome_iff s1 k).mpr hk1) ?_]
    · simp [exBind_error]
    · intro a ha hak
      rw [mapGet_none_iff]
      intro ha1
      exact hak (huniq a ha1 ha)
  refine ⟨hm, ?_⟩
  unfold loadAndApply
  rw [hm]

/-- Witness for C8: two one-record sources both naming `dup`. -/
theorem merge_duplicate_name_conflict_witness :
    mergeSources [[(str "dup", ({} : Metadata))], [(str "dup", ({} : Metadata))]] =
      .error (.conflict (str "dup")) ∧
    loadAndApply {} [[(str "dup", ({} : Metadata))], [(str "dup", ({} : Metadata))]] =
      .error (.conflict (str "dup")) :=
  merge_duplicate_name_conflict {} [(str "dup", {})] [(str "dup", {})] (str "dup")
    (by decide) (by decide) (by decide) (by decide)
    (fun a ha _ => by simpa using ha)

/-- Witness for C10: `a/x.sql` and `b/x.sql` both define record `x`;
loading succeeds and keeps the second file's query. -/
theorem loadFromDir_same_name_silently_replaces_witness :
    LoadFromDirModel [(str "a/x.sql", str "select 1;"), (str "b/x.sql", str "select 2;")] =
      .ok [(str "x", { name := str "x", query := str "select 2;",
                       singleLineQuery := str "select 2;" })] := by
  have h := loadFromDir_same_name_silently_replaces
    (str "a/x.sql") (str "select 1;") (str "b/x.sql") (str "select 2;")
    { name := str "x", query := str "select 1;", singleLineQuery := str "select 1;" }
    { name := str "x", query := str "select 2;", singleLineQuery := str "select 2;" }
    (by decide) (by decide) (by decide) (by decide) (by decide)
  exact h

/-! ## String lemmas for the render/parse round trip (claim C4) -/

theorem splitChar_of_not_mem (c : Char) (s : Str) (h : c ∉ s) : splitChar c s = [s] := by
  induction s with
  | nil => rfl
  | cons a rest ih =>
    rw [splitChar]
    have ha : ¬ a = c := fun he => h (he ▸ List.mem_cons_self a rest)
    rw [if_neg ha, ih (fun hm => h (List.mem_cons_of_mem a hm))]

theorem splitChar_append_sep (c : Char) (y : Str) (x : Str) :
    splitChar c (x ++ c :: y) = splitChar c x ++ splitChar c y := by
  induction x with
  | nil => simp [splitChar]
  | cons a rest ih =>
    by_cases ha : a = c
    · rw [List.cons_append, splitChar, if_pos ha, ih, splitChar, if_pos ha, List.cons_append]
    · rw [List.cons_append, splitChar, if_neg ha, ih, splitChar, if_neg ha]
      rcases hs : splitChar c rest with _ | ⟨hd, tl⟩
      · exact absurd hs (splitChar_ne_nil c rest)
      · rfl

theorem mem_splitChar_not_mem (c : Char) (s : Str) (l : Str) (h : l ∈ splitChar c s) :
    c ∉ l := by
  induction s generalizing l with
  | nil =>
    simp only [splitChar, List.mem_singleton] at h
    subst h
    simp
  | cons a rest ih =>
    rw [splitChar] at h
    by_cases ha : a = c
    · rw [if_pos ha] at h
      rcases List.mem_cons.mp h with he | hm
      · subst he; simp
      · exact ih l hm
    · rw [if_neg ha] at h
      rcases hs : splitChar c rest with _ | ⟨hd, tl⟩
      · exact absurd hs (splitChar_ne_nil c rest)
      · rw [hs] at h
        rcases List.mem_cons.mp h with he | hm
        · subst he
          intro hmem
          rcases List.mem_cons.mp hmem with he2 | hm2
          · exact ha he2.symm
          · exact ih hd (hs ▸ List.mem_cons_self hd tl) hm2
        · exact ih l (hs ▸ List.mem_cons_of_mem hd hm)

theorem intercalate_cons₂ (s a : Str) (b : Str) (t : List Str) :
    List.intercalate s (a :: b :: t) = a ++ s ++ List.intercalate s (b :: t) := by
  simp [List.intercalate, List.intersperse]

theorem intercalate_single (s a : Str) : List.intercalate s [a] = a := by
  simp [List.intercalate, List.intersperse]

theorem splitChar_intercalate_flat (c : Char) (L : List Str) (hL : L ≠ []) :
    splitChar c (List.intercalate [c] L) = (L.map (splitChar c)).flatten := by
  induction L with
  | nil => exact absurd rfl hL
  | cons x rest ih =>
    rcases rest with _ | ⟨y, t⟩
    · simp [intercalate_single, splitChar]
    · rw [intercalate_cons₂, List.append_assoc, List.singleton_append,
        splitChar_append_sep, ih (by simp)]
      simp

theorem intercalate_append_nil (c : Char) (L : List Str) (hL : L ≠ []) :
    List.intercalate [c] (L ++ [[]]) = List.intercalate [c] L ++ [c] := by
  induction L with
  | nil => exact absurd rfl hL
  | cons x rest ih =>
    rcases rest with _ | ⟨y, t⟩
    · simp [intercalate_single, intercalate_cons₂]
    · show List.intercalate [c] (x :: y :: (t ++ [[]])) = List.intercalate [c] (x :: y :: t) ++ [c]
      rw [intercalate_cons₂ [c] x y (t ++ [[]]),
          show (y :: (t ++ [[]])) = (y :: t) ++ [[]] from rfl,
          ih (by simp), intercalate_cons₂ [c] x y t]
      simp

theorem trimLeft_cons_ws (w : Char) (s : Str) (hw : isWS w = true) :
    trimLeft (w :: s) = trimLeft s := by
  simp [trimLeft, List.dropWhile_cons, hw]

theorem trimLeft_cons_not_ws (a : Char) (s : Str) (ha : isWS a = false) :
    trimLeft (a :: s) = a :: s := by
  simp [trimLeft, List.dropWhile_cons, ha]

theorem head_not_ws_of_trimLeft (a : Char) (t : Str) (h : trimLeft (a :: t) = a :: t) :
    isWS a = false := by
  by_contra hc
  rw [Bool.not_eq_false] at hc
  rw [trimLeft, List.dropWhile_cons] at h
  simp only [hc, if_true] at h
  have hsub := (List.dropWhile_sublist (l := t) (p := isWS)).length_le
  have h2 := congrArg List.length h
  simp at h2
  omega

theorem trimLeft_append (s t : Str) (hs : trimLeft s = s) (hne : s ≠ []) :
    trimLeft (s ++ t) = s ++ t := by
  rcases s with _ | ⟨a, r⟩
  · exact absurd rfl hne
  · have ha := head_not_ws_of_trimLeft a r hs
    rw [List.cons_append, trimLeft_cons_not_ws _ _ ha]

theorem trimRight_append_ws (w : Char) (s : Str) (hw : isWS w = true) :
    trimRight (s ++ [w]) = trimRight s := by
  rw [trimRight, trimRight, List.reverse_append]
  simp [List.dropWhile_cons, hw]

theorem trimRight_append (s t : Str) (ht : trimRight t = t) (hne : t ≠ []) :
    trimRight (s ++ t) = s ++ t := by
  rcases hrev : t.reverse with _ | ⟨b, rb⟩
  · rw [List.reverse_eq_nil_iff] at hrev
    exact absurd hrev hne
  · have ht2 : t = rb.reverse ++ [b] := by
      have h3 := congrArg List.reverse hrev
      rw [List.reverse_reverse] at h3
      simpa using h3
    have hb : isWS b = false := by
      have h1 : trimLeft (b :: rb) = b :: rb := by
        have h4 := congrArg List.reverse ht
        rw [trimRight, List.reverse_reverse, hrev] at h4
        rw [trimLeft]
        exact h4
      exact head_not_ws_of_trimLeft b rb h1
    rw [trimRight, List.reverse_append, hrev, List.cons_append, List.dropWhile_cons, hb]
    simp only [Bool.false_eq_true, if_false]
    rw [List.reverse_cons, List.reverse_append, List.reverse_reverse]
    rw [List.append_assoc, ← ht2]

theorem trimSpace_cons_ws (w : Char) (s : Str) (hw : isWS w = true) :
    trimSpace (w :: s) = trimSpace s := by
  rw [trimSpace, trimLeft_cons_ws w s hw, trimSpace]

theorem trimSpace_append_ws (w : Char) (s : Str) (hw : isWS w = true) :
    trimSpace (s ++ [w]) = trimSpace s := by
  rw [trimSpace, trimSpace]
  by_cases hall : trimLeft s = []
  · rw [trimLeft, List.dropWhile_append]
    rw [trimLeft] at hall
    rw [hall]
    simp only [List.isEmpty_nil, if_true, List.dropWhile_cons, hw, List.dropWhile_nil]
    rw [trimLeft, hall]
  · rw [trimLeft, List.dropWhile_append]
    rw [trimLeft] at hall
    simp only [List.isEmpty_iff, hall, if_false]
    exact trimRight_append_ws w _ hw

theorem trimSpace_eq_of (s : Str) (h1 : trimLeft s = s) (h2 : trimRight s = s) :
    trimSpace s = s := by
  rw [trimSpace, h1, h2]

theorem cutAt_prefixOf (sep s : Str) (hne : sep ≠ []) (h : sep.isPrefixOf s = true) :
    cutAt sep s = some ([], s.drop sep.length) := by
  rcases s with _ | ⟨a, r⟩
  · rw [List.isPrefixOf_iff_prefix, List.prefix_nil] at h
    exact absurd h hne
  · rw [cutAt, if_pos h]

theorem cutAt_single (c : Char) (z : Str) (a : Str) (h : c ∉ a) :
    cutAt [c] (a ++ c :: z) = some (a, z) := by
  induction a with
  | nil =>
    rw [List.nil_append, cutAt]
    have hp : List.isPrefixOf [c] (c :: z) = true := by
      simp [List.isPrefixOf]
    rw [if_pos hp]
    rfl
  | cons x r ih =>
    have hx : ¬ x = c := fun he => h (he ▸ List.mem_cons_self x r)
    rw [List.cons_append, cutAt]
    have hp : List.isPrefixOf [c] (x :: (r ++ c :: z)) = false := by
      simp [List.isPrefixOf, Ne.symm hx]
    rw [hp]
    simp only [Bool.false_eq_true, if_false,
      ih (fun hm => h (List.mem_cons_of_mem x hm))]
    rfl

theorem natDigitsFuel_spec (n : Nat) : ∀ f g : Nat, n < f → n < g →
    natDigitsFuel f n = natDigitsFuel g n := by
  induction n using Nat.strong_induction_on with
  | _ n ih =>
    intro f g hf hg
    rcases f with _ | f
    · omega
    rcases g with _ | g
    · omega
    simp only [natDigitsFuel]
    by_cases h10 : n < 10
    · simp [h10]
    · simp only [h10, if_false]
      have hd : n / 10 < n := Nat.div_lt_self (by omega) (by omega)
      rw [ih (n / 10) hd f (n / 10 + 1) (by omega) (by omega),
          ih (n / 10) hd g (n / 10 + 1) (by omega) (by omega)]

theorem natDigits_unfold (n : Nat) :
    natDigits n = if n < 10 then [Nat.digitChar n]
      else natDigits (n / 10) ++ [Nat.digitChar (n % 10)] := by
  rw [natDigits]
  simp only [natDigitsFuel]
  by_cases h10 : n < 10
  · simp [h10]
  · simp only [h10, if_false]
    have hd : n / 10 < n := Nat.div_lt_self (by omega) (by omega)
    rw [natDigitsFuel_spec (n / 10) n (n / 10 + 1) (by omega) (by omega), natDigits]

theorem digitChar_isDigit (r : Nat) (h : r < 10) : (Nat.digitChar r).isDigit = true := by
  interval_cases r <;> decide

theorem digitChar_toNat (r : Nat) (h : r < 10) : (Nat.digitChar r).toNat - 48 = r := by
  interval_cases r <;> decide

theorem natDigits_all_digit (n : Nat) : ∀ c ∈ natDigits n, c.isDigit = true := by
  induction n using Nat.strong_induction_on with
  | _ n ih =>
    rw [natDigits_unfold]
    by_cases h10 : n < 10
    · simp only [h10, if_true, List.mem_singleton]
      rintro c rfl
      exact digitChar_isDigit n h10
    · simp only [h10, if_false]
      intro c hc
      rcases List.mem_append.mp hc with hm | hm
      · exact ih (n / 10) (Nat.div_lt_self (by omega) (by omega)) c hm
      · rw [List.mem_singleton] at hm
        subst hm
        exact digitChar_isDigit (n % 10) (Nat.mod_lt n (by omega))

theorem natDigits_ne_nil (n : Nat) : natDigits n ≠ [] := by
  rw [natDigits_unfold]
  by_cases h10 : n < 10 <;> simp [h10]

theorem digitsVal_append_char (a : Str) (c : Char) :
    digitsVal (a ++ [c]) = digitsVal a * 10 + (c.toNat - 48) := by
  rw [digitsVal, digitsVal, List.foldl_append]
  rfl

theorem digitsVal_natDigits (n : Nat) : digitsVal (natDigits n) = n := by
  induction n using Nat.strong_induction_on with
  | _ n ih =>
    rw [natDigits_unfold]
    by_cases h10 : n < 10
    · simp only [h10, if_true]
      show digitsVal ([] ++ [Nat.digitChar n]) = n
      rw [digitsVal_append_char]
      have := digitChar_toNat n h10
      simp only [digitsVal, List.foldl_nil]
      omega
    · simp only [h10, if_false]
      rw [digitsVal_append_char, ih (n / 10) (Nat.div_lt_self (by omega) (by omega)),
        digitChar_toNat (n % 10) (Nat.mod_lt n (by omega))]
      omega

theorem atoi?_natDigits (n : Nat) : atoi? (natDigits n) = some (Int.ofNat n) := by
  have hne := natDigits_ne_nil n
  have hdig := natDigits_all_digit n
  have hval : digitsToNat? (natDigits n) = some n := by
    rw [digitsToNat?]
    have hcond : (decide (natDigits n ≠ []) && (natDigits n).all Char.isDigit) = true := by
      rw [Bool.and_eq_true]
      exact ⟨decide_eq_true hne, List.all_eq_true.mpr (fun c hc => hdig c hc)⟩
    rw [if_pos hcond, digitsVal_natDigits]
  rcases hd : natDigits n with _ | ⟨h, t⟩
  · exact absurd hd hne
  · have hdigh : h.isDigit = true := hdig h (hd ▸ List.mem_cons_self h t)
    have hplus : ¬ h = '+' := by rintro rfl; cases hdigh
    have hminus : ¬ h = '-' := by rintro rfl; cases hdigh
    rw [hd] at hval
    unfold atoi?
    split
    next heq =>
      rw [← hd] at heq
      rw [hd] at heq
      injection heq with h1 h2
      exact (hplus h1).elim
    next heq =>
      rw [← hd] at heq
      rw [hd] at heq
      injection heq with h1 h2
      exact (hminus h1).elim
    next =>
      rw [← hd] at hval ⊢
      rw [hval]
      rfl

theorem atoi?_itoa_nonneg (i : Int) (h : 0 ≤ i) : atoi? (itoa i) = some i := by
  rw [itoa, if_neg (by omega), atoi?_natDigits]
  simp [Int.toNat_of_nonneg h]

/-! ## Line-level lemmas for the round trip (claim C4) -/

theorem parseLines_append (l1 l2 : List Str) : ∀ (i : Nat) (st : PState),
    parseLines i st (l1 ++ l2) =
      match parseLines i st l1 with
      | .error e => .error e
      | .ok st' => parseLines (i + l1.length) st' l2 := by
  induction l1 with
  | nil =>
    intro i st
    simp [parseLines]
  | cons l rest ih =>
    intro i st
    rw [List.cons_append, parseLines, parseLines]
    rcases parseLine st (i, l) with _ | st1
    · rfl
    · dsimp only
      rw [ih (i + 1) st1]
      rcases parseLines (i + 1) st1 rest with _ | st2
      · rfl
      · dsimp only
        have he : i + 1 + rest.length = i + (l :: rest).length := by
          simp [List.length_cons]
          omega
        rw [he]

theorem parseLines_keepAll (ls : List Str) : ∀ (i : Nat) (st : PState),
    (∀ l ∈ ls, '\n' ∉ l) → (∀ l ∈ ls, keepsWhole l = true) →
    parseLines i st ls = .ok { st with out := st.out ++ ls } := by
  induction ls with
  | nil =>
    intro i st _ _
    simp [parseLines]
  | cons l rest ih =>
    intro i st hnl hk
    rw [parseLines,
      parseLine_keeps st i l (trimSuffixNL_eq l (hnl l (by simp))) (hk l (by simp))]
    dsimp only
    rw [ih (i + 1) _ (fun x hx => hnl x (by simp [hx])) (fun x hx => hk x (by simp [hx]))]
    simp

theorem commentSplit_dashes (rest : Str) :
    commentSplit ('-' :: '-' :: rest) = ([], rest, true) := by
  unfold commentSplit
  have hp : List.isPrefixOf (str "--") ('-' :: '-' :: rest) = true := by
    show List.isPrefixOf ['-', '-'] ('-' :: '-' :: rest) = true
    simp [List.isPrefixOf]
  rw [cutAt_prefixOf (str "--") ('-' :: '-' :: rest) (by decide) hp]
  dsimp only
  rw [show List.drop (List.length (str "--")) ('-' :: '-' :: rest) = rest from rfl]
  rw [if_neg (fun h => absurd h.1 (by decide)), if_neg (fun h => absurd h.1 (by decide))]

theorem parseLine_directive (st : PState) (i : Nat) (key v : Str)
    (hi : i ≠ 0)
    (hkey : key ≠ []) (hkeyTL : trimLeft key = key) (hkeyCol : ':' ∉ key)
    (hkeyNL : '\n' ∉ key)
    (hvL : trimLeft v = v) (hvR : trimRight v = v) (hvne : v ≠ []) (hvNL : '\n' ∉ v) :
    parseLine st (i, str "-- " ++ key ++ ':' :: ' ' :: v) =
      (applyDirective st.m key v).map fun m2 => { st with m := m2 } := by
  have hline : str "-- " ++ key ++ ':' :: ' ' :: v =
      '-' :: '-' :: (' ' :: (key ++ ':' :: ' ' :: v)) := by
    simp [str]
  have hafter : trimSpace (' ' :: (key ++ ':' :: ' ' :: v)) = key ++ ':' :: ' ' :: v := by
    rw [trimSpace_cons_ws ' ' _ (by decide)]
    apply trimSpace_eq_of
    · exact trimLeft_append key _ hkeyTL hkey
    · have h5 : key ++ ':' :: ' ' :: v = (key ++ [':', ' ']) ++ v := by simp
      rw [h5]
      exact trimRight_append _ v hvR hvne
  have hnlLine : '\n' ∉ '-' :: '-' :: (' ' :: (key ++ ':' :: ' ' :: v)) := by
    intro hm
    simp only [List.mem_cons, List.mem_append] at hm
    rcases hm with h | h | h | hm2
    · cases h
    · cases h
    · cases h
    · rcases hm2 with h | h | h | h
      · exact hkeyNL h
      · cases h
      · cases h
      · exact hvNL h
  rw [hline]
  unfold parseLine
  dsimp only
  simp only [Bool.not_eq_true']
  rw [trimSuffixNL_eq _ hnlLine, commentSplit_dashes]
  dsimp only
  rw [if_neg (by decide)]
  have hpre : hasPrefixStr (str "--")
      (trimSpace ('-' :: '-' :: (' ' :: (key ++ ':' :: ' ' :: v)))) = true := by
    have htl : trimLeft ('-' :: '-' :: (' ' :: (key ++ ':' :: ' ' :: v))) =
        '-' :: '-' :: (' ' :: (key ++ ':' :: ' ' :: v)) :=
      trimLeft_cons_not_ws '-' _ (by decide)
    have hform : '-' :: '-' :: (' ' :: (key ++ ':' :: ' ' :: v)) =
        ('-' :: '-' :: ' ' :: key ++ [':', ' ']) ++ v := by simp
    rw [trimSpace, htl, hform, trimRight_append _ v hvR hvne]
    show List.isPrefixOf ['-', '-'] ('-' :: '-' :: (' ' :: key ++ [':', ' '] ++ v)) = true
    simp [List.isPrefixOf]
  rw [hpre]
  rw [if_neg (show ¬ (true = false) from by decide)]
  rw [if_neg hi, hafter]
  have htsafter : trimSpace (key ++ ':' :: ' ' :: v) = key ++ ':' :: ' ' :: v := by
    apply trimSpace_eq_of
    · exact trimLeft_append key _ hkeyTL hkey
    · have h5 : key ++ ':' :: ' ' :: v = (key ++ [':', ' ']) ++ v := by simp
      rw [h5]
      exact trimRight_append _ v hvR hvne
  rw [htsafter]
  have hcut : cutAt [':'] (key ++ ':' :: (' ' :: v)) = some (key, ' ' :: v) :=
    cutAt_single ':' (' ' :: v) key hkeyCol
  rw [hcut]
  dsimp only
  rw [show trimSpace (' ' :: v) = v from by
    rw [trimSpace_cons_ws ' ' v (by decide)]
    exact trimSpace_eq_of v hvL hvR]

def recognizedDirective (k : Str) : Bool :=
  k = str "interval" || k = str "platform" || k = str "version" ||
  k = str "tags" || k = str "shard" || k = str "value"

def directiveKeyOf (d : Str) : Str :=
  match cutAt [':'] d with
  | none => d
  | some p => p.1

theorem applyDirective_unrecognized (m : Metadata) (k c : Str)
    (h : recognizedDirective k = false) : applyDirective m k c = .ok m := by
  unfold applyDirective
  simp only [recognizedDirective, Bool.or_eq_false_iff, decide_eq_false_iff_not] at h
  obtain ⟨⟨⟨⟨⟨h1, h2⟩, h3⟩, h4⟩, h5⟩, h6⟩ := h
  rw [if_neg h1, if_neg h2, if_neg h3, if_neg h4, if_neg h5, if_neg h6]

theorem parseLine_divider_zero (st : PState) :
    parseLine st (0, str "--") = .ok { st with m := { st.m with description := [] } } := rfl

theorem parseLine_empty (st : PState) (i : Nat) :
    parseLine st (i, []) = .ok { st with out := st.out ++ [[]] } := rfl

theorem parseLine_divider (st : PState) (i : Nat) (hi : i ≠ 0) :
    parseLine st (i, str "--") = .ok st := by
  unfold parseLine
  dsimp only
  simp only [Bool.not_eq_true']
  rw [show trimSuffixStr (str "\n") (str "--") = '-' :: '-' :: ([] : Str) from rfl,
    commentSplit_dashes]
  dsimp only
  rw [if_neg (by decide),
    if_neg (show ¬ (hasPrefixStr (str "--") (trimSpace ['-', '-']) = false) from by decide),
    if_neg hi]
  rfl

theorem parseLine_descLine (st : PState) (d : Str)
    (hdL : trimLeft d = d) (hdR : trimRight d = d) (hdne : d ≠ []) (hdNL : '\n' ∉ d)
    (hnd : recognizedDirective (directiveKeyOf d) = false) :
    parseLine st (0, str "-- " ++ d) =
      .ok { st with m := { st.m with description := d } } := by
  have hline : str "-- " ++ d = '-' :: '-' :: (' ' :: d) := by simp [str]
  have hnlLine : '\n' ∉ '-' :: '-' :: (' ' :: d) := by
    intro hm
    rcases List.mem_cons.mp hm with h | hm2
    · cases h
    · rcases List.mem_cons.mp hm2 with h | hm3
      · cases h
      · rcases List.mem_cons.mp hm3 with h | h
        · cases h
        · exact hdNL h
  have hts : trimSpace (' ' :: d) = d := by
    rw [trimSpace_cons_ws ' ' d (by decide)]
    exact trimSpace_eq_of d hdL hdR
  rw [hline]
  unfold parseLine
  dsimp only
  simp only [Bool.not_eq_true']
  rw [trimSuffixNL_eq _ hnlLine, commentSplit_dashes]
  dsimp only
  rw [if_neg (by decide)]
  have hpre : hasPrefixStr (str "--") (trimSpace ('-' :: '-' :: (' ' :: d))) = true := by
    have htl : trimLeft ('-' :: '-' :: (' ' :: d)) = '-' :: '-' :: (' ' :: d) :=
      trimLeft_cons_not_ws '-' _ (by decide)
    have hform : '-' :: '-' :: (' ' :: d) = ['-', '-', ' '] ++ d := by simp
    rw [trimSpace, htl, hform, trimRight_append _ d hdR hdne]
    show List.isPrefixOf ['-', '-'] (['-', '-', ' '] ++ d) = true
    simp [List.isPrefixOf]
  rw [hpre]
  rw [if_neg (show ¬ (true = false) from by decide)]
  simp only [if_true]
  rw [hts]
  rw [show trimSpace d = d from trimSpace_eq_of d hdL hdR]
  rcases hdc : cutAt [':'] d with _ | p
  · dsimp only
    rw [applyDirective_unrecognized _ _ _ (by rw [directiveKeyOf, hdc] at hnd; exact hnd)]
    rfl
  · dsimp only
    rw [applyDirective_unrecognized _ _ _ (by rw [directiveKeyOf, hdc] at hnd; exact hnd)]
    rfl


/-! ## Claim C4: the render/parse round trip -/

theorem isDigit_not_ws (c : Char) (h : c.isDigit = true) : isWS c = false := by
  rw [isWS]
  simp only [Bool.or_eq_false_iff, decide_eq_false_iff_not]
  refine ⟨⟨⟨⟨⟨?_, ?_⟩, ?_⟩, ?_⟩, ?_⟩, ?_⟩ <;>
    (rintro rfl; exact absurd h (by decide))

theorem trimLeft_of_all_digits (s : Str) (hne : s ≠ [])
    (h : ∀ c ∈ s, c.isDigit = true) : trimLeft s = s := by
  rcases s with _ | ⟨a, t⟩
  · exact absurd rfl hne
  · exact trimLeft_cons_not_ws a t (isDigit_not_ws a (h a (List.mem_cons_self a t)))

theorem trimRight_of_all_digits (s : Str) (hne : s ≠ [])
    (h : ∀ c ∈ s, c.isDigit = true) : trimRight s = s := by
  rcases hrev : s.reverse with _ | ⟨b, rb⟩
  · rw [List.reverse_eq_nil_iff] at hrev
    exact absurd hrev hne
  · have hb : b ∈ s := by
      rw [← List.mem_reverse, hrev]
      exact List.mem_cons_self b rb
    rw [trimRight, hrev, List.dropWhile_cons, isDigit_not_ws b (h b hb)]
    simp only [Bool.false_eq_true, if_false]
    rw [← hrev, List.reverse_reverse]

theorem natDigits_no_nl (n : Nat) : '\n' ∉ natDigits n := by
  intro hm
  exact absurd (natDigits_all_digit n '\n' hm) (by decide)

theorem itoa_pos_digits (i : Int) (h : 0 < i) :
    itoa i = natDigits i.toNat := by
  rw [itoa, if_neg (by omega)]

/-- Well-formedness of a record as `Parse` produces it. -/
structure RenderWF (m : Metadata) : Prop where
  descL : trimLeft m.description = m.description
  descR : trimRight m.description = m.description
  descNL : '\n' ∉ m.description
  descND : recognizedDirective (directiveKeyOf m.description) = false
  intL : trimLeft m.interval = m.interval
  intR : trimRight m.interval = m.interval
  intNL : '\n' ∉ m.interval
  platL : trimLeft m.platform = m.platform
  platR : trimRight m.platform = m.platform
  platNL : '\n' ∉ m.platform
  valL : trimLeft m.value = m.value
  valR : trimRight m.value = m.value
  valNL : '\n' ∉ m.value
  verL : trimLeft m.version = m.version
  verR : trimRight m.version = m.version
  verNL : '\n' ∉ m.version
  shardNonneg : 0 ≤ m.shard
  extEmpty : m.extendedDescription = []
  queryL : trimLeft m.query = m.query
  queryR : trimRight m.query = m.query
  querySemi : hasSuffixStr (str ";") m.query = true
  queryKeep : ∀ l ∈ splitChar '\n' m.query, keepsWhole l = true
  slq : m.singleLineQuery =
    trimSpace (List.intercalate (str " ") ((splitChar '\n' m.query).map trimSpace))
  platInfer : m.platform = [] → inferPlatform m.name = []

theorem flat_opt (c : Prop) [Decidable c] (l : Str) (hnl : c → '\n' ∉ l) :
    ((if c then [l] else []).map (splitChar '\n')).flatten = if c then [l] else [] := by
  by_cases hc : c
  · simp [hc, splitChar_of_not_mem '\n' l (hnl hc)]
  · simp [hc]

theorem splitRender (m : Metadata) (wf : RenderWF m) :
    splitChar '\n' (Render m) =
      (if m.description ≠ [] then [str "-- " ++ m.description] else [])
      ++ [str "--"] ++ headerSegs m
      ++ ([[]] ++ splitChar '\n' m.query ++ [[]]) := by
  rw [Render]
  have hileft : (renderLines m) ≠ [] := by
    rw [renderLines]
    rcases h : (if m.description ≠ [] then [str "-- " ++ m.description] else []) with _ | _
    · simp
    · simp
  rw [show List.intercalate (str "\n") (renderLines m) ++ str "\n"
      = List.intercalate [ '\n' ] (renderLines m ++ [[]]) from by
    rw [intercalate_append_nil '\n' (renderLines m) hileft]; rfl]
  rw [splitChar_intercalate_flat '\n' (renderLines m ++ [[]]) (by simp)]
  rw [renderLines, wf.extEmpty]
  simp only [ne_eq, not_true_eq_false, if_false, List.nil_append]
  rw [headerSegs, intervalSeg, platformSeg, shardSeg, valueSeg, versionSeg]
  simp only [List.map_append, List.flatten_append]
  rw [flat_opt _ _ (fun hc => by
        intro hm
        rcases List.mem_append.mp hm with h | h
        · exact absurd h (by decide)
        · exact wf.descNL h),
      flat_opt _ _ (fun hc => by
        intro hm
        rcases List.mem_append.mp hm with h | h
        · exact absurd h (by decide)
        · exact wf.intNL h),
      flat_opt _ _ (fun hc => by
        intro hm
        rcases List.mem_append.mp hm with h | h
        · exact absurd h (by decide)
        · exact wf.platNL h),
      flat_opt _ _ (fun hc => by
        intro hm
        rcases List.mem_append.mp hm with h | h
        · exact absurd h (by decide)
        · exact (natDigits_no_nl _) ((itoa_pos_digits m.shard hc) ▸ h)),
      flat_opt _ _ (fun hc => by
        intro hm
        rcases List.mem_append.mp hm with h | h
        · exact absurd h (by decide)
        · exact wf.valNL h),
      flat_opt _ _ (fun hc => by
        intro hm
        rcases List.mem_append.mp hm with h | h
        · exact absurd h (by decide)
        · exact wf.verNL h)]
  simp only [List.map_cons, List.map_nil, List.flatten_cons, List.flatten_nil]
  rw [splitChar_of_not_mem '\n' (str "--") (by decide)]
  simp only [splitChar, List.append_nil, List.nil_append]
  simp [List.append_assoc]

theorem parseLines_optLine (c : Prop) [Decidable c] (line : Str)
    (upd : Metadata → Metadata)
    (h : ∀ (i : Nat) (st : PState), i ≠ 0 → c →
      parseLine st (i, line) = .ok { st with m := upd st.m })
    (i : Nat) (hi : i ≠ 0) (st : PState) (rest : List Str) :
    parseLines i st ((if c then [line] else []) ++ rest) =
      parseLines (i + (if c then [line] else []).length)
        { st with m := if c then upd st.m else st.m } rest := by
  by_cases hc : c
  · simp only [hc, if_true]
    rw [List.singleton_append, parseLines, h i st hi hc]
    rfl
  · simp only [hc, if_false]
    simp only [List.nil_append, List.length_nil, Nat.add_zero]

/-- Field updates performed by re-parsing the rendered directive lines. -/
def applyRendered (src mm : Metadata) : Metadata :=
  let mm := if src.interval ≠ [] then { mm with interval := src.interval } else mm
  let mm := if src.platform ≠ [] then { mm with platform := src.platform } else mm
  let mm := if src.shard > 0 then { mm with shard := src.shard } else mm
  let mm := if src.value ≠ [] then { mm with value := src.value } else mm
  let mm := if src.version ≠ [] then { mm with version := src.version } else mm
  mm

theorem parseLines_headerSegs (m : Metadata) (wf : RenderWF m) (rest : List Str) :
    ∀ (i : Nat) (st : PState), i ≠ 0 →
    parseLines i st (headerSegs m ++ rest) =
      parseLines (i + (headerSegs m).length) { st with m := applyRendered m st.m } rest := by
  intro i st hi
  rw [headerSegs, intervalSeg, platformSeg, shardSeg, valueSeg, versionSeg]
  simp only [List.append_assoc]
  rw [parseLines_optLine (m.interval ≠ []) _ (fun mm => { mm with interval := m.interval })
    (fun j stj hj hc => by
      have hline : str "-- interval: " ++ m.interval =
          str "-- " ++ str "interval" ++ ':' :: ' ' :: m.interval := by simp [str]
      rw [hline, parseLine_directive stj j (str "interval") m.interval hj (by decide) (by decide)
        (by decide) (by decide) wf.intL wf.intR hc wf.intNL]
      rfl) i hi st]
  rw [parseLines_optLine (m.platform ≠ []) _ (fun mm => { mm with platform := m.platform })
    (fun j stj hj hc => by
      have hline : str "-- platform: " ++ m.platform =
          str "-- " ++ str "platform" ++ ':' :: ' ' :: m.platform := by simp [str]
      rw [hline, parseLine_directive stj j (str "platform") m.platform hj (by decide) (by decide)
        (by decide) (by decide) wf.platL wf.platR hc wf.platNL]
      rfl) _ (by omega)]
  rw [parseLines_optLine (m.shard > 0) _ (fun mm => { mm with shard := m.shard })
    (fun j stj hj hc => by
      have hdig := natDigits_all_digit m.shard.toNat
      have hne := natDigits_ne_nil m.shard.toNat
      have hline : str "-- shard: " ++ itoa m.shard =
          str "-- " ++ str "shard" ++ ':' :: ' ' :: itoa m.shard := by simp [str]
      rw [hline, parseLine_directive stj j (str "shard") (itoa m.shard) hj (by decide) (by decide)
        (by decide) (by decide)
        (by rw [itoa_pos_digits m.shard hc]; exact trimLeft_of_all_digits _ hne hdig)
        (by rw [itoa_pos_digits m.shard hc]; exact trimRight_of_all_digits _ hne hdig)
        (by rw [itoa_pos_digits m.shard hc]; exact hne)
        (by rw [itoa_pos_digits m.shard hc]; exact natDigits_no_nl _)]
      have happ : applyDirective stj.m (str "shard") (itoa m.shard) =
          .ok { stj.m with shard := m.shard } := by
        unfold applyDirective
        rw [if_neg (by decide), if_neg (by decide), if_neg (by decide), if_neg (by decide),
          if_pos rfl, atoi?_itoa_nonneg m.shard wf.shardNonneg]
      rw [happ]
      rfl) _ (by omega)]
  rw [parseLines_optLine (m.value ≠ []) _ (fun mm => { mm with value := m.value })
    (fun j stj hj hc => by
      have hline : str "-- value: " ++ m.value =
          str "-- " ++ str "value" ++ ':' :: ' ' :: m.value := by simp [str]
      rw [hline, parseLine_directive stj j (str "value") m.value hj (by decide) (by decide)
        (by decide) (by decide) wf.valL wf.valR hc wf.valNL]
      rfl) _ (by omega)]
  rw [parseLines_optLine (m.version ≠ []) _ (fun mm => { mm with version := m.version })
    (fun j stj hj hc => by
      have hline : str "-- version: " ++ m.version =
          str "-- " ++ str "version" ++ ':' :: ' ' :: m.version := by simp [str]
      rw [hline, parseLine_directive stj j (str "version") m.version hj (by decide) (by decide)
        (by decide) (by decide) wf.verL wf.verR hc wf.verNL]
      rfl) _ (by omega)]
  rw [applyRendered]
  simp only [List.length_append]
  have hidx : ∀ A B C D E : Nat, i + A + B + C + D + E = i + (A + (B + (C + (D + E)))) := by
    intro A B C D E
    omega
  rw [hidx]

theorem exMap_ok {ε α β : Type} (f : α → β) (x : α) :
    Except.map f (Except.ok x : Except ε α) = .ok (f x) := rfl

theorem intercalate_splitChar (c : Char) (s : Str) :
    List.intercalate [c] (splitChar c s) = s := by
  induction s with
  | nil => simp [splitChar, intercalate_single]
  | cons a rest ih =>
    rw [splitChar]
    by_cases h : a = c
    · subst h
      rw [if_pos rfl]
      rcases hsp : splitChar a rest with _ | ⟨x, t⟩
      · exact absurd hsp (splitChar_ne_nil a rest)
      · rw [hsp] at ih
        rw [intercalate_cons₂, ih]
        simp
    · rw [if_neg h]
      rcases hsp : splitChar c rest with _ | ⟨x, t⟩
      · exact absurd hsp (splitChar_ne_nil c rest)
      · rw [hsp] at ih
        rcases t with _ | ⟨y, t2⟩
        · rw [intercalate_single] at ih
          subst ih
          rw [intercalate_single]
        · rw [intercalate_cons₂] at ih
          rw [intercalate_cons₂, ← ih]
          simp

theorem applyRendered_fields (m mm : Metadata) : applyRendered m mm =
    { mm with
      interval := if m.interval ≠ [] then m.interval else mm.interval,
      platform := if m.platform ≠ [] then m.platform else mm.platform,
      shard := if m.shard > 0 then m.shard else mm.shard,
      value := if m.value ≠ [] then m.value else mm.value,
      version := if m.version ≠ [] then m.version else mm.version } := by
  simp only [applyRendered]
  split_ifs <;> rfl

theorem parseLines_rendered (m : Metadata) (wf : RenderWF m) :
    parseLines 0 ⟨{ name := m.name }, []⟩ (splitChar '\n' (Render m)) =
      .ok ⟨applyRendered m { name := m.name, description := m.description },
           [[]] ++ splitChar '\n' m.query ++ [[]]⟩ := by
  have hbody : ∀ (i : Nat) (st : PState),
      parseLines i st ([[]] ++ splitChar '\n' m.query ++ [[]]) =
        .ok { st with out := st.out ++ ([[]] ++ splitChar '\n' m.query ++ [[]]) } := by
    intro i st
    apply parseLines_keepAll
    · intro l hl
      rcases List.mem_append.mp hl with hl1 | hl2
      · rcases List.mem_append.mp hl1 with hl0 | hlq
        · rw [List.mem_singleton.mp hl0]
          simp
        · exact mem_splitChar_not_mem '\n' m.query l hlq
      · rw [List.mem_singleton.mp hl2]
        simp
    · intro l hl
      rcases List.mem_append.mp hl with hl1 | hl2
      · rcases List.mem_append.mp hl1 with hl0 | hlq
        · rw [List.mem_singleton.mp hl0]
          decide
        · exact wf.queryKeep l hlq
      · rw [List.mem_singleton.mp hl2]
        decide
  rw [splitRender m wf]
  by_cases hd : m.description ≠ []
  · rw [if_pos hd]
    show parseLines 0 ⟨{ name := m.name }, []⟩
        ((str "-- " ++ m.description) :: str "--" ::
          (headerSegs m ++ ([[]] ++ splitChar '\n' m.query ++ [[]]))) = _
    rw [parseLines,
      parseLine_descLine ⟨{ name := m.name }, []⟩ m.description wf.descL wf.descR hd
        wf.descNL wf.descND]
    dsimp only
    rw [parseLines, parseLine_divider _ (0 + 1) (by decide)]
    dsimp only
    rw [parseLines_headerSegs m wf ([[]] ++ splitChar '\n' m.query ++ [[]]) (0 + 1 + 1) _
      (by decide), hbody]
    rfl
  · rw [if_neg hd]
    have hd0 : m.description = [] := not_not.mp hd
    show parseLines 0 ⟨{ name := m.name }, []⟩
        (str "--" :: (headerSegs m ++ ([[]] ++ splitChar '\n' m.query ++ [[]]))) = _
    rw [parseLines, parseLine_divider_zero]
    dsimp only
    rw [parseLines_headerSegs m wf ([[]] ++ splitChar '\n' m.query ++ [[]]) (0 + 1) _
      (by decide), hbody, hd0]
    rfl

theorem trimSpace_intercalate_pad (c : Char) (hc : isWS c = true) (L : List Str)
    (hL : L ≠ []) :
    trimSpace (List.intercalate [c] ([[]] ++ L ++ [[]])) =
      trimSpace (List.intercalate [c] L) := by
  obtain ⟨x, t, rfl⟩ := List.exists_cons_of_ne_nil hL
  show trimSpace (List.intercalate [c] ([] :: x :: (t ++ [[]]))) = _
  rw [intercalate_cons₂]
  rw [show (x :: (t ++ [[]])) = (x :: t) ++ [[]] from rfl]
  rw [intercalate_append_nil c (x :: t) (by simp)]
  show trimSpace (c :: (List.intercalate [c] (x :: t) ++ [c])) = _
  rw [trimSpace_cons_ws c _ hc, trimSpace_append_ws c _ hc]

/-- Claim C4 (amended): for every record that is well formed in the sense
`Parse` guarantees (trimmed newline-free directive fields, a description
that is not shaped like a recognized directive, nonnegative shard, empty
extended description, a trimmed query ending in a semicolon whose lines
survive the comment splitter unchanged, a consistent single-line form,
and a name that does not trigger platform inference when no platform is
set), re-parsing the multi-line rendered form yields exactly the original
record except that the tags are always erased, because `Render` never
emits a `tags:` directive (query.go lines 76-117 have no tags line). -/
theorem parse_render_roundtrip_drops_tags (m : Metadata) (wf : RenderWF m) :
    Parse m.name (Render m) = .ok { m with tags := [] } := by
  have hq : trimSpace (List.intercalate (str "\n")
      ([[]] ++ splitChar '\n' m.query ++ [[]])) = m.query := by
    rw [show str "\n" = ['\n'] from rfl]
    rw [trimSpace_intercalate_pad '\n' (by decide) _ (splitChar_ne_nil '\n' m.query)]
    rw [intercalate_splitChar]
    exact trimSpace_eq_of m.query wf.queryL wf.queryR
  have hmap : List.map trimSpace ([[]] ++ splitChar '\n' m.query ++ [[]]) =
      [[]] ++ List.map trimSpace (splitChar '\n' m.query) ++ [[]] := by
    simp only [List.map_append]
    rfl
  have hsl : trimSpace (List.intercalate (str " ")
      (List.map trimSpace ([[]] ++ splitChar '\n' m.query ++ [[]]))) = m.singleLineQuery := by
    rw [show str " " = [' '] from rfl, hmap]
    rw [trimSpace_intercalate_pad ' ' (by decide) _
      (by simp [splitChar_ne_nil '\n' m.query])]
    rw [wf.slq, show str " " = [' '] from rfl]
  rw [Parse, parseLines_rendered m wf, exMap_ok]
  dsimp only
  rw [hq, hsl, wf.querySemi]
  rw [if_neg (show ¬((!true) = true) from by decide)]
  rw [applyRendered_fields]
  dsimp only
  have hI : (if m.interval ≠ [] then m.interval else ([] : Str)) = m.interval := by
    by_cases h : m.interval ≠ []
    · rw [if_pos h]
    · rw [if_neg h, not_not.mp h]
  have hS : (if m.shard > 0 then m.shard else (0 : Int)) = m.shard := by
    by_cases h : m.shard > 0
    · rw [if_pos h]
    · rw [if_neg h]
      have := wf.shardNonneg
      omega
  have hV : (if m.value ≠ [] then m.value else ([] : Str)) = m.value := by
    by_cases h : m.value ≠ []
    · rw [if_pos h]
    · rw [if_neg h, not_not.mp h]
  have hVer : (if m.version ≠ [] then m.version else ([] : Str)) = m.version := by
    by_cases h : m.version ≠ []
    · rw [if_pos h]
    · rw [if_neg h, not_not.mp h]
  by_cases hp : m.platform ≠ []
  · rw [if_pos hp]
    rw [if_pos (show ¬(m.platform = []) from hp)]
    rw [hI, hS, hV, hVer, wf.extEmpty]
  · rw [if_neg hp]
    have hp0 : m.platform = [] := not_not.mp hp
    rw [if_neg (show ¬(([] : Str) ≠ []) from fun h => h rfl)]
    rw [wf.platInfer hp0, hI, hS, hV, hVer, hp0, wf.extEmpty]

/-- A concrete record with a nonempty tag list, for the C4 counterexample. -/
def mTagged : Metadata :=
  { query := str "select 1;", name := str "q", tags := [str "often"],
    singleLineQuery := str "select 1;" }

/-- A concrete well-formed record exercising every rendered directive. -/
def mW : Metadata :=
  { query := str "select 1;", interval := str "3600", shard := 2,
    platform := str "linux", version := str "1.2.3",
    description := str "Find things", value := str "total",
    name := str "find-things", tags := [], singleLineQuery := str "select 1;" }

/-- Claim C4 (counterexample): a record carrying the tag `often` renders
to a form that parses back with the tags erased, so the round trip does
not preserve the `tags` directive value claimed by the specification. -/
theorem render_roundtrip_loses_tags_cex :
    mTagged.tags ≠ [] ∧
    Parse mTagged.name (Render mTagged) = .ok { mTagged with tags := [] } := by
  decide

/-- Witness for C4 (amended): the concrete record `mW` is well formed and
its rendered form re-parses to `mW` with empty tags. -/
theorem parse_render_roundtrip_drops_tags_witness :
    RenderWF mW ∧ Parse mW.name (Render mW) = .ok { mW with tags := [] } := by
  have h : RenderWF mW := by
    constructor <;> decide
  exact ⟨h, parse_render_roundtrip_drops_tags mW h⟩

end Osq
